import Mathlib

/-! # erroneous: annotated errors with context, status code and call stack

A shallow embedding of `erroneous.go` and the properties of its operations.

Conventions of the embedding:

* a Go slice is the list of its elements (a nil slice of `interface{}` is the
  empty list); every index expression, index assignment and slice expression
  of the source is a checked operation that yields a run-time error when it is
  out of range, so every operation returns `Except RuntimeError _`;
* a pointer `*erroneous` is the struct it points to;
* the only dynamic type satisfying the `Error` interface is `*erroneous`;
* the loops of the source are index loops, defined by recursion on the
  distance of the index to the length of the slice.
-/

namespace Erroneous

/-! ## Values of Go -/

/-- A value of type `interface{}`: the nil interface, a `string`, an `int`, or
a value of any other dynamic type (identified by a tag). -/
inductive Val where
  | nil
  | str (s : String)
  | int (n : Int)
  | other (tag : Nat)
  deriving DecidableEq, Repr

/-- The comma-ok type assertion `v.(string)`, its `ok` component. -/
def Val.isString : Val → Bool
  | .str _ => true
  | _ => false

/-- A run-time error (Go panic) of an index or slice expression. -/
inductive RuntimeError where
  | indexOutOfRange
  | sliceBoundsOutOfRange
  deriving DecidableEq, Repr

/-- The index expression `s[i]`. -/
def index (s : List Val) (i : Nat) : Except RuntimeError Val :=
  match s[i]? with
  | some v => .ok v
  | none => .error .indexOutOfRange

/-- The index assignment `s[i] = v`. -/
def setIndex (s : List Val) (i : Nat) (v : Val) : Except RuntimeError (List Val) :=
  if i < s.length then .ok (s.set i v) else .error .indexOutOfRange

/-- The slice expression `s[lo:]`. -/
def sliceFrom {α : Type} (s : List α) (lo : Nat) : Except RuntimeError (List α) :=
  if lo ≤ s.length then .ok (s.drop lo) else .error .sliceBoundsOutOfRange

/-- The slice expression `s[:hi]` of a slice whose capacity is its length. -/
def sliceTo {α : Type} (s : List α) (hi : Nat) : Except RuntimeError (List α) :=
  if hi ≤ s.length then .ok (s.take hi) else .error .sliceBoundsOutOfRange

/-- The builtin `make([]interface{}, n)`: n nil interfaces. -/
def make (n : Nat) : List Val := List.replicate n Val.nil

/-- The builtin `copy(dst, src)`: the new contents of dst and the number of
elements copied, the smaller of the two lengths. -/
def copy (dst src : List Val) : List Val × Nat :=
  let n := min dst.length src.length
  (src.take n ++ dst.drop n, n)

/-! ## The call stack (external collaborator) -/

/-- One frame of a call stack, identified by its call site. -/
structure Call where
  site : Nat
  deriving DecidableEq, Repr

/-- A value of `stack.CallStack`: `none` is the nil slice. -/
abbrev CallStack := Option (List Call)

/-- Modelled from the spec: the call-stack capture primitive `stack.Trace()`
of the external stack package. Element 0 identifies the function calling
`Trace`, the remaining elements are its callers, innermost first. -/
def Trace (self : Call) (callers : List Call) : List Call := self :: callers

/-! ## The data model -/

/-- A value of the interface type `error`: nil, an error that does not satisfy
`Error` (identified by `id`), or a pointer to an `erroneous` (its fields). -/
inductive GoError where
  | nil
  | plain (id : Nat)
  | annotated (error : GoError) (ctx : List Val) (stack : CallStack)
  deriving DecidableEq, Repr

/-- The struct `erroneous`. -/
structure erroneous where
  error : GoError
  ctx : List Val
  stack : CallStack
  deriving DecidableEq, Repr

/-- A value of the interface type `Error`: `none` is nil. -/
abbrev Error := Option erroneous

/-- The type assertion `err.(Error)`. -/
def GoError.asError : GoError → Option erroneous
  | .annotated c x s => some ⟨c, x, s⟩
  | _ => none

/-- The conversion of an `Error` to the interface type `error`. -/
def Error.toGoError : Error → GoError
  | none => .nil
  | some e => .annotated e.error e.ctx e.stack

/-- The constant `httpCode`. -/
def httpCode : String := "httpcode"

/-! ## The operations -/

/-- The function `badCtx`. -/
def badCtx (msg : String) : List Val := [Val.str "ERRONEOUS_ERROR", Val.str msg]

/-- The loop of `validate`, from index i on. -/
def validate.loop (ctx : List Val) (i : Nat) : Except RuntimeError (List Val) :=
  if i < ctx.length then
    match index ctx i with
    | .error p => .error p
    | .ok v =>
      if v.isString then validate.loop ctx (i + 2)
      else .ok (badCtx "invalid context, even-position not a string")
  else .ok ctx
termination_by ctx.length - i

/-- The function `validate`. -/
def validate (ctx : List Val) : Except RuntimeError (List Val) :=
  if ctx.length % 2 ≠ 0 then .ok (badCtx "invalid context, odd length")
  else validate.loop ctx 0

/-- The function `Wrap`; `self` and `callers` are the frames `stack.Trace()`
sees at this call, `TrimRuntime` is the method of the external stack package. -/
def Wrap (TrimRuntime : CallStack → CallStack) (self : Call) (callers : List Call)
    (err : GoError) (ctx : List Val) : Except RuntimeError Error :=
  if err = GoError.nil then .ok none
  else
    match err.asError with
    | some e => .ok (some e)
    | none =>
      match validate ctx with
      | .error p => .error p
      | .ok c =>
        match sliceFrom (Trace self callers) 1 with
        | .error p => .error p
        | .ok st => .ok (some { error := err, ctx := c, stack := TrimRuntime (some st) })

/-- The method `Context`. -/
def erroneous.Context (err : erroneous) : List Val := err.ctx

/-- The loop of `Value`, from index i on. -/
def erroneous.Value.loop (err : erroneous) (key : String) (i : Nat) : Except RuntimeError Val :=
  if i + 1 < err.ctx.length then
    match index err.ctx i with
    | .error p => .error p
    | .ok k =>
      if k = Val.str key then index err.ctx (i + 1)
      else erroneous.Value.loop err key (i + 2)
  else .ok Val.nil
termination_by err.ctx.length - i

/-- The method `Value`. -/
def erroneous.Value (err : erroneous) (key : String) : Except RuntimeError Val :=
  erroneous.Value.loop err key 0

/-- The method `HTTPCode`. -/
def erroneous.HTTPCode (err : erroneous) : Except RuntimeError Int :=
  match err.Value httpCode with
  | .error p => .error p
  | .ok (Val.int code) => .ok code
  | .ok _ => .ok 500

/-- The method `Stack`. -/
def erroneous.Stack (err : erroneous) : CallStack := err.stack

/-- The method `WithStack`. -/
def erroneous.WithStack (TrimRuntime : CallStack → CallStack) (self : Call) (callers : List Call)
    (err : erroneous) : Except RuntimeError erroneous :=
  match sliceFrom (Trace self callers) 1 with
  | .error p => .error p
  | .ok st => .ok { error := err.error, ctx := err.ctx, stack := TrimRuntime (some st) }

/-- The method `WithContext`. -/
def erroneous.WithContext (err : erroneous) (ctx : List Val) : Except RuntimeError erroneous :=
  match validate ctx with
  | .error p => .error p
  | .ok ctx =>
    let newCtx := make (err.ctx.length + ctx.length)
    let (newCtx, n) := copy newCtx err.ctx
    match sliceFrom newCtx n with
    | .error p => .error p
    | .ok rest =>
      let (rest, m) := copy rest ctx
      let newCtx := newCtx.take n ++ rest
      let n := n + m
      match sliceTo newCtx n with
      | .error p => .error p
      | .ok c => .ok { error := err.error, ctx := c, stack := err.stack }

/-- The loop of `WithHTTPCode`, from index i on, with the call of `WithContext`
that follows it. -/
def erroneous.WithHTTPCode.loop (err : erroneous) (code : Int) (i : Nat) :
    Except RuntimeError erroneous :=
  if i < err.ctx.length then
    match index err.ctx i with
    | .error p => .error p
    | .ok k =>
      if k = Val.str httpCode then
        let ctx := make err.ctx.length
        let (ctx, _) := copy ctx err.ctx
        match setIndex ctx (i + 1) (Val.int code) with
        | .error p => .error p
        | .ok ctx => .ok { error := err.error, ctx := ctx, stack := err.stack }
      else erroneous.WithHTTPCode.loop err code (i + 2)
  else err.WithContext [Val.str httpCode, Val.int code]
termination_by err.ctx.length - i

/-- The method `WithHTTPCode`. -/
def erroneous.WithHTTPCode (err : erroneous) (code : Int) : Except RuntimeError erroneous :=
  erroneous.WithHTTPCode.loop err code 0

/-- The method `Unwrap`. -/
def erroneous.Unwrap (err : erroneous) : GoError := err.error

/-! ## Vocabulary of the properties -/

/-- Every element at an even index is a string. -/
def StringKeys (ctx : List Val) : Prop :=
  ∀ i (h : i < ctx.length), i % 2 = 0 → ctx[i].isString = true

instance (ctx : List Val) : Decidable (StringKeys ctx) := by
  unfold StringKeys; infer_instance

/-- A context of the shape `validate` accepts: even length, and every element
at an even index is a string. -/
def ValidCtx (ctx : List Val) : Prop :=
  ctx.length % 2 = 0 ∧ StringKeys ctx

instance (ctx : List Val) : Decidable (ValidCtx ctx) := by
  unfold ValidCtx; infer_instance

/-- The string k occurs as a key of ctx: at some even index. -/
def HasKey (ctx : List Val) (k : String) : Prop :=
  ∃ i, i < ctx.length ∧ i % 2 = 0 ∧ ctx[i]? = some (Val.str k)

instance (ctx : List Val) (k : String) : Decidable (HasKey ctx k) := by
  unfold HasKey; infer_instance

/-- The index i is the first key position of k in ctx: i is even, ctx holds
the string k at i, and at no smaller even index. -/
def FirstKeyAt (ctx : List Val) (k : String) (i : Nat) : Prop :=
  i % 2 = 0 ∧ ctx[i]? = some (Val.str k) ∧
    ∀ j, j < i → j % 2 = 0 → ctx[j]? ≠ some (Val.str k)

instance (ctx : List Val) (k : String) (i : Nat) : Decidable (FirstKeyAt ctx k i) := by
  unfold FirstKeyAt; infer_instance

/-- The annotated errors a caller can hold: the result of `Wrap` on an error
that is not nil and not already annotated, and the results of the three
mutators on such errors. -/
inductive Reachable : erroneous → Prop where
  | wrap (T : CallStack → CallStack) (self : Call) (callers : List Call) (c : Nat)
      (ctx : List Val) (e : erroneous) :
      Wrap T self callers (GoError.plain c) ctx = .ok (some e) → Reachable e
  | withContext (e : erroneous) (pairs : List Val) (e2 : erroneous) :
      Reachable e → e.WithContext pairs = .ok e2 → Reachable e2
  | withHTTPCode (e : erroneous) (code : Int) (e2 : erroneous) :
      Reachable e → e.WithHTTPCode code = .ok e2 → Reachable e2
  | withStack (T : CallStack → CallStack) (self : Call) (callers : List Call)
      (e e2 : erroneous) :
      Reachable e → e.WithStack T self callers = .ok e2 → Reachable e2

/-! ## The call stack: trimming -/

/-- Modelled from the spec: the method `TrimRuntime` of the external stack
package, which is to "trim frames belonging to the underlying
runtime/standard library", the frames being "trimmed from the top": cut from
one end of the stack, not removed wherever they are. That end is the outer one
(the last elements of the slice), where the frames of the runtime that started
the goroutine are; element 0 is the innermost frame, the one the library and
its tests read as the call site. The frames for which `runtime` holds are cut
from the outer end until the outermost frame is not one of them; such frames
further in are kept, and the nil stack stays nil. -/
def TrimRuntime (runtime : Call → Bool) : CallStack → CallStack
  | none => none
  | some cs => some (cs.reverse.dropWhile runtime).reverse

/-! ## The operations on a memory of backing arrays

The same methods with slices as references: a slice value points into a
backing array of the memory, `make` and a composite literal allocate an array,
`copy` and an index assignment write into one, and `&erroneous{...}` allocates
a struct. The receiver is a pointer; its fields are read once, where the
method first uses one (no method of the source assigns a field). -/

namespace Heap

/-- A slice value: the address of the backing array, the offset of the slice
in it, its length and its capacity. -/
structure Slice where
  arr : Nat
  off : Nat
  len : Nat
  cap : Nat
  deriving DecidableEq, Repr

/-- The struct `erroneous` as stored: its ctx is a slice value. -/
structure erroneous where
  error : GoError
  ctx : Slice
  stack : CallStack
  deriving DecidableEq, Repr

/-- The memory: backing arrays and `erroneous` structs, each by address. -/
structure Memory where
  arrays : List (List Val)
  structs : List erroneous
  deriving Repr

/-- A failure of an operation on the memory: a run-time error of Go, the
dereference of a pointer to no struct, or a slice that lies outside its
backing array. -/
inductive Fault where
  | runtime (e : RuntimeError)
  | invalidPointer
  | invalidAddress
  deriving DecidableEq, Repr

/-- The elements of a slice, when it lies within its backing array. -/
def Memory.elems (m : Memory) (s : Slice) : Option (List Val) :=
  if s.len = 0 then some []
  else
    match m.arrays[s.arr]? with
    | some a => if s.off + s.len ≤ a.length then some ((a.drop s.off).take s.len) else none
    | none => none

/-- The annotated error a pointer denotes: the struct at the address with the
elements of its ctx. -/
def Memory.read (m : Memory) (p : Nat) : Option Erroneous.erroneous :=
  match m.structs[p]? with
  | some o =>
    match m.elems o.ctx with
    | some c => some { error := o.error, ctx := c, stack := o.stack }
    | none => none
  | none => none

/-- The dereference of a pointer to a struct. -/
def deref (m : Memory) (p : Nat) : Except Fault erroneous :=
  match m.structs[p]? with
  | some o => .ok o
  | none => .error .invalidPointer

/-- The allocation `&erroneous{...}`: the new memory and the pointer. -/
def alloc (m : Memory) (o : erroneous) : Memory × Nat :=
  ({ arrays := m.arrays, structs := m.structs ++ [o] }, m.structs.length)

/-- The index expression `s[i]`. -/
def load (m : Memory) (s : Slice) (i : Nat) : Except Fault Val :=
  if i < s.len then
    match m.arrays[s.arr]? with
    | some a =>
      match a[s.off + i]? with
      | some v => .ok v
      | none => .error .invalidAddress
    | none => .error .invalidAddress
  else .error (.runtime .indexOutOfRange)

/-- The index assignment `s[i] = v`. -/
def store (m : Memory) (s : Slice) (i : Nat) (v : Val) : Except Fault Memory :=
  if i < s.len then
    match m.arrays[s.arr]? with
    | some a =>
      if s.off + i < a.length then
        .ok { arrays := m.arrays.set s.arr (a.set (s.off + i) v), structs := m.structs }
      else .error .invalidAddress
    | none => .error .invalidAddress
  else .error (.runtime .indexOutOfRange)

/-- The slice expression `s[lo:]`. -/
def Slice.sliceFrom (s : Slice) (lo : Nat) : Except Fault Slice :=
  if lo ≤ s.len then
    .ok { arr := s.arr, off := s.off + lo, len := s.len - lo, cap := s.cap - lo }
  else .error (.runtime .sliceBoundsOutOfRange)

/-- The slice expression `s[:hi]`. -/
def Slice.sliceTo (s : Slice) (hi : Nat) : Except Fault Slice :=
  if hi ≤ s.cap then .ok { arr := s.arr, off := s.off, len := hi, cap := s.cap }
  else .error (.runtime .sliceBoundsOutOfRange)

/-- The builtin `make([]interface{}, n)`: a new array of n nil interfaces. -/
def make (m : Memory) (n : Nat) : Memory × Slice :=
  ({ arrays := m.arrays ++ [List.replicate n Val.nil], structs := m.structs },
   { arr := m.arrays.length, off := 0, len := n, cap := n })

/-- A composite literal `[]interface{}{...}`, also the slice of the arguments
of a variadic call: a new array with the given elements. -/
def literal (m : Memory) (vs : List Val) : Memory × Slice :=
  ({ arrays := m.arrays ++ [vs], structs := m.structs },
   { arr := m.arrays.length, off := 0, len := vs.length, cap := vs.length })

/-- The builtin `copy(dst, src)`: the first n elements of src are read and
then written to dst, n the smaller of the two lengths. -/
def copy (m : Memory) (dst src : Slice) : Except Fault (Memory × Nat) :=
  let n := min dst.len src.len
  if n = 0 then .ok (m, 0)
  else
    match m.elems { arr := src.arr, off := src.off, len := n, cap := src.cap },
        m.arrays[dst.arr]? with
    | some vs, some a =>
      if dst.off + n ≤ a.length then
        .ok ({ arrays := m.arrays.set dst.arr (a.take dst.off ++ vs ++ a.drop (dst.off + n)),
               structs := m.structs }, n)
      else .error .invalidAddress
    | _, _ => .error .invalidAddress

/-- The function `badCtx`: the composite literal is a new array. -/
def badCtx (m : Memory) (msg : String) : Memory × Slice :=
  literal m [Val.str "ERRONEOUS_ERROR", Val.str msg]

/-- The loop of `validate`, from index i on. -/
def validate.loop (m : Memory) (ctx : Slice) (i : Nat) : Except Fault (Memory × Slice) :=
  if i < ctx.len then
    match load m ctx i with
    | .error p => .error p
    | .ok v =>
      if v.isString then validate.loop m ctx (i + 2)
      else .ok (badCtx m "invalid context, even-position not a string")
  else .ok (m, ctx)
termination_by ctx.len - i

/-- The function `validate`. -/
def validate (m : Memory) (ctx : Slice) : Except Fault (Memory × Slice) :=
  if ctx.len % 2 ≠ 0 then .ok (badCtx m "invalid context, odd length")
  else validate.loop m ctx 0

/-- The method `WithStack`. -/
def WithStack (TrimRuntime : CallStack → CallStack) (self : Call) (callers : List Call)
    (m : Memory) (err : Nat) : Except Fault (Memory × Nat) :=
  match deref m err with
  | .error p => .error p
  | .ok o =>
    match Erroneous.sliceFrom (Trace self callers) 1 with
    | .error p => .error (.runtime p)
    | .ok st => .ok (alloc m { error := o.error, ctx := o.ctx, stack := TrimRuntime (some st) })

/-- The method `WithContext`. -/
def WithContext (m : Memory) (err : Nat) (ctx : Slice) : Except Fault (Memory × Nat) :=
  match validate m ctx with
  | .error p => .error p
  | .ok (m, ctx) =>
    match deref m err with
    | .error p => .error p
    | .ok o =>
      let (m, newCtx) := make m (o.ctx.len + ctx.len)
      match copy m newCtx o.ctx with
      | .error p => .error p
      | .ok (m, n) =>
        match newCtx.sliceFrom n with
        | .error p => .error p
        | .ok rest =>
          match copy m rest ctx with
          | .error p => .error p
          | .ok (m, k) =>
            let n := n + k
            match newCtx.sliceTo n with
            | .error p => .error p
            | .ok c => .ok (alloc m { error := o.error, ctx := c, stack := o.stack })

/-- The loop of `WithHTTPCode` on the fields o of the receiver, from index i
on, with the call of `WithContext` that follows it. -/
def WithHTTPCode.loop (m : Memory) (err : Nat) (o : erroneous) (code : Int) (i : Nat) :
    Except Fault (Memory × Nat) :=
  if i < o.ctx.len then
    match load m o.ctx i with
    | .error p => .error p
    | .ok k =>
      if k = Val.str httpCode then
        let (m, ctx) := make m o.ctx.len
        match copy m ctx o.ctx with
        | .error p => .error p
        | .ok (m, _) =>
          match store m ctx (i + 1) (Val.int code) with
          | .error p => .error p
          | .ok m => .ok (alloc m { error := o.error, ctx := ctx, stack := o.stack })
      else WithHTTPCode.loop m err o code (i + 2)
  else
    let (m, args) := literal m [Val.str httpCode, Val.int code]
    WithContext m err args
termination_by o.ctx.len - i

/-- The method `WithHTTPCode`. -/
def WithHTTPCode (m : Memory) (err : Nat) (code : Int) : Except Fault (Memory × Nat) :=
  match deref m err with
  | .error p => .error p
  | .ok o => WithHTTPCode.loop m err o code 0

end Heap

/-! ## Checked slice operations -/

theorem index_of_lt (s : List Val) (i : Nat) (h : i < s.length) :
    index s i = .ok s[i] := by
  simp [index, List.getElem?_eq_getElem h]

theorem index_eq_ok_iff (s : List Val) (i : Nat) (v : Val) :
    index s i = .ok v ↔ s[i]? = some v := by
  unfold index
  cases h : s[i]? <;> simp

/-! ## validate -/

theorem validate_loop_ok (ctx : List Val) :
    ∀ (n i : Nat), ctx.length - i ≤ n →
      (∀ j (h : j < ctx.length), i ≤ j → (j - i) % 2 = 0 → ctx[j].isString = true) →
      validate.loop ctx i = .ok ctx := by
  intro n
  induction n with
  | zero =>
    intro i hn _
    rw [validate.loop, if_neg (by omega)]
  | succ n ih =>
    intro i hn hs
    rw [validate.loop]
    by_cases hi : i < ctx.length
    · rw [if_pos hi, index_of_lt ctx i hi]
      simp only [hs i hi (Nat.le_refl i) (by simp), if_true]
      apply ih (i + 2) (by omega)
      intro j hj hij hpar
      exact hs j hj (by omega) (by omega)
    · rw [if_neg hi]

theorem validate_loop_bad (ctx : List Val) :
    ∀ (n i j : Nat) (h : j < ctx.length), ctx.length - i ≤ n → i ≤ j → (j - i) % 2 = 0 →
      ctx[j].isString = false →
      validate.loop ctx i = .ok (badCtx "invalid context, even-position not a string") := by
  intro n
  induction n with
  | zero =>
    intro i j h hn hij _ _
    omega
  | succ n ih =>
    intro i j h hn hij hpar hns
    rw [validate.loop, if_pos (by omega), index_of_lt ctx i (by omega)]
    by_cases hs : ctx[i].isString = true
    · simp only [hs, if_true]
      have hne : i ≠ j := by
        intro heq
        subst heq
        rw [hs] at hns
        exact Bool.noConfusion hns
      exact ih (i + 2) j h (by omega) (by omega) (by omega) hns
    · simp [hs]

theorem validate_odd (ctx : List Val) (h : ctx.length % 2 = 1) :
    validate ctx = .ok (badCtx "invalid context, odd length") := by
  simp [validate, h]

theorem validate_valid (ctx : List Val) (h : ValidCtx ctx) : validate ctx = .ok ctx := by
  unfold validate
  rw [if_neg (by simp [h.1])]
  exact validate_loop_ok ctx ctx.length 0 (by omega) (fun j hj _ hpar => h.2 j hj (by simpa using hpar))

theorem validate_notString (ctx : List Val) (hlen : ctx.length % 2 = 0) (h : ¬ StringKeys ctx) :
    validate ctx = .ok (badCtx "invalid context, even-position not a string") := by
  unfold validate
  rw [if_neg (by simp [hlen])]
  unfold StringKeys at h
  push_neg at h
  obtain ⟨j, hj, hpar, hns⟩ := h
  exact validate_loop_bad ctx ctx.length 0 j hj (by omega) (by omega) (by simpa using hpar)
    (by simpa using hns)

theorem validate_cases (ctx : List Val) :
    (ValidCtx ctx ∧ validate ctx = .ok ctx) ∨
    (ctx.length % 2 = 1 ∧ validate ctx = .ok (badCtx "invalid context, odd length")) ∨
    (ctx.length % 2 = 0 ∧ ¬ StringKeys ctx ∧
      validate ctx = .ok (badCtx "invalid context, even-position not a string")) := by
  by_cases hlen : ctx.length % 2 = 0
  · by_cases hs : StringKeys ctx
    · exact Or.inl ⟨⟨hlen, hs⟩, validate_valid ctx ⟨hlen, hs⟩⟩
    · exact Or.inr (Or.inr ⟨hlen, hs, validate_notString ctx hlen hs⟩)
  · have h1 : ctx.length % 2 = 1 := by omega
    exact Or.inr (Or.inl ⟨h1, validate_odd ctx h1⟩)

theorem validCtx_badCtx (msg : String) : ValidCtx (badCtx msg) := by
  refine ⟨by simp [badCtx], ?_⟩
  intro i h hpar
  have h2 : i < 2 := by simpa [badCtx] using h
  have h0 : i = 0 := by omega
  subst h0
  rfl

theorem validate_result_valid (ctx c : List Val) (h : validate ctx = .ok c) : ValidCtx c := by
  rcases validate_cases ctx with ⟨hv, he⟩ | ⟨_, he⟩ | ⟨_, _, he⟩
  · rw [he] at h; cases h; exact hv
  · rw [he] at h; cases h; exact validCtx_badCtx _
  · rw [he] at h; cases h; exact validCtx_badCtx _

theorem validate_total (ctx : List Val) : ∃ c, validate ctx = .ok c := by
  rcases validate_cases ctx with ⟨_, he⟩ | ⟨_, he⟩ | ⟨_, _, he⟩ <;> exact ⟨_, he⟩

/-! ## Wrap -/

theorem Wrap_plain (T : CallStack → CallStack) (self : Call) (callers : List Call) (c : Nat)
    (ctx v : List Val) (h : validate ctx = .ok v) :
    Wrap T self callers (GoError.plain c) ctx =
      .ok (some { error := GoError.plain c, ctx := v, stack := T (some callers) }) := by
  simp [Wrap, GoError.asError, h, sliceFrom, Trace]

theorem Wrap_annotated (T : CallStack → CallStack) (self : Call) (callers : List Call)
    (e : erroneous) (ctx : List Val) :
    Wrap T self callers (Error.toGoError (some e)) ctx = .ok (some e) := by
  simp [Wrap, Error.toGoError, GoError.asError]

/-! ## Value -/

theorem Value_loop_found (e : erroneous) (k : String) (v : Val) :
    ∀ (n i j : Nat), j - i ≤ n → i ≤ j → (j - i) % 2 = 0 →
      e.ctx[j]? = some (Val.str k) →
      (∀ m, i ≤ m → m < j → (m - i) % 2 = 0 → e.ctx[m]? ≠ some (Val.str k)) →
      e.ctx[j + 1]? = some v →
      erroneous.Value.loop e k i = .ok v := by
  intro n
  induction n with
  | zero =>
    intro i j hn hij _ hk _ hv
    have hji : j = i := by omega
    subst hji
    have hlt : j + 1 < e.ctx.length := (List.getElem?_eq_some_iff.mp hv).1
    rw [erroneous.Value.loop, if_pos hlt, (index_eq_ok_iff e.ctx j _).mpr hk]
    simp only [if_true]
    exact (index_eq_ok_iff e.ctx (j + 1) v).mpr hv
  | succ n ih =>
    intro i j hn hij hpar hk hfirst hv
    have hlt : j + 1 < e.ctx.length := (List.getElem?_eq_some_iff.mp hv).1
    by_cases hji : j = i
    · subst hji
      rw [erroneous.Value.loop, if_pos hlt, (index_eq_ok_iff e.ctx j _).mpr hk]
      simp only [if_true]
      exact (index_eq_ok_iff e.ctx (j + 1) v).mpr hv
    · have hi : i < e.ctx.length := by omega
      have hne : e.ctx[i] ≠ Val.str k := by
        intro heq
        apply hfirst i (Nat.le_refl i) (by omega) (by simp)
        rw [List.getElem?_eq_getElem hi, heq]
      rw [erroneous.Value.loop, if_pos (by omega), index_of_lt e.ctx i hi]
      simp only [hne, if_false]
      apply ih (i + 2) j (by omega) (by omega) (by omega) hk _ hv
      intro m hm hmj hmpar
      exact hfirst m (by omega) hmj (by omega)

theorem Value_loop_absent (e : erroneous) (k : String) :
    ∀ (n i : Nat), e.ctx.length - i ≤ n →
      (∀ m, i ≤ m → m + 1 < e.ctx.length → (m - i) % 2 = 0 → e.ctx[m]? ≠ some (Val.str k)) →
      erroneous.Value.loop e k i = .ok Val.nil := by
  intro n
  induction n with
  | zero =>
    intro i hn _
    rw [erroneous.Value.loop, if_neg (by omega)]
  | succ n ih =>
    intro i hn habs
    rw [erroneous.Value.loop]
    by_cases hlt : i + 1 < e.ctx.length
    · have hi : i < e.ctx.length := by omega
      have hne : e.ctx[i] ≠ Val.str k := by
        intro heq
        apply habs i (Nat.le_refl i) hlt (by simp)
        rw [List.getElem?_eq_getElem hi, heq]
      rw [if_pos hlt, index_of_lt e.ctx i hi]
      simp only [hne, if_false]
      apply ih (i + 2) (by omega)
      intro m hm hmlt hmpar
      exact habs m (by omega) hmlt (by omega)
    · rw [if_neg hlt]

theorem Value_of_firstKey (e : erroneous) (k : String) (i : Nat) (v : Val)
    (hf : FirstKeyAt e.ctx k i) (hv : e.ctx[i + 1]? = some v) :
    e.Value k = .ok v := by
  obtain ⟨hpar, hk, hfirst⟩ := hf
  exact Value_loop_found e k v i 0 i (by omega) (by omega) (by simpa using hpar) hk
    (fun m _ hmi hmpar => hfirst m hmi (by simpa using hmpar)) hv

theorem Value_of_noKey (e : erroneous) (k : String) (h : ¬ HasKey e.ctx k) :
    e.Value k = .ok Val.nil := by
  apply Value_loop_absent e k e.ctx.length 0 (by omega)
  intro m _ hmlt hmpar hk
  exact h ⟨m, by omega, by simpa using hmpar, hk⟩

/-- A key that occurs has a first position. -/
theorem firstKey_of_hasKey (ctx : List Val) (k : String) (h : HasKey ctx k) :
    ∃ i, i < ctx.length ∧ FirstKeyAt ctx k i := by
  classical
  have hex : ∃ i, i % 2 = 0 ∧ ctx[i]? = some (Val.str k) := by
    obtain ⟨i, _, hpar, hk⟩ := h
    exact ⟨i, hpar, hk⟩
  refine ⟨Nat.find hex, ?_, (Nat.find_spec hex).1, (Nat.find_spec hex).2, ?_⟩
  · exact (List.getElem?_eq_some_iff.mp (Nat.find_spec hex).2).1
  · intro j hj hpar hk
    exact Nat.find_min hex hj ⟨hpar, hk⟩

theorem firstKey_lt (ctx : List Val) (k : String) (i : Nat) (hf : FirstKeyAt ctx k i) :
    i < ctx.length :=
  (List.getElem?_eq_some_iff.mp hf.2.1).1

/-- In a context of even length the first key position has a paired value. -/
theorem firstKey_succ_lt (ctx : List Val) (k : String) (i : Nat) (hlen : ctx.length % 2 = 0)
    (hf : FirstKeyAt ctx k i) : i + 1 < ctx.length := by
  have h1 := firstKey_lt ctx k i hf
  have h2 := hf.1
  omega

/-! ## WithContext -/

theorem copy_make_append (src : List Val) (b : Nat) :
    copy (make (src.length + b)) src = (src ++ make b, src.length) := by
  simp [copy, make, List.drop_replicate]

theorem copy_make_exact (src : List Val) :
    copy (make src.length) src = (src, src.length) := by
  simp [copy, make, List.drop_replicate]

theorem WithContext_ok (e : erroneous) (pairs c : List Val) (h : validate pairs = .ok c) :
    e.WithContext pairs = .ok { error := e.error, ctx := e.ctx ++ c, stack := e.stack } := by
  unfold erroneous.WithContext
  rw [h]
  simp only [copy_make_append]
  have h1 : sliceFrom (e.ctx ++ make c.length) e.ctx.length = .ok (make c.length) := by
    simp [sliceFrom, make]
  rw [h1]
  simp only [copy_make_exact]
  simp [sliceTo]

theorem validCtx_append (a b : List Val) (ha : ValidCtx a) (hb : ValidCtx b) :
    ValidCtx (a ++ b) := by
  obtain ⟨ha1, ha2⟩ := ha
  obtain ⟨hb1, hb2⟩ := hb
  refine ⟨by rw [List.length_append]; omega, ?_⟩
  intro i h hpar
  by_cases hi : i < a.length
  · rw [List.getElem_append_left hi]
    exact ha2 i hi hpar
  · have hi2 : a.length ≤ i := by omega
    rw [List.getElem_append_right hi2]
    exact hb2 (i - a.length) _ (by omega)

theorem validCtx_httpCode (code : Int) : ValidCtx [Val.str httpCode, Val.int code] := by
  refine ⟨by simp, ?_⟩
  intro i h hpar
  have h2 : i < 2 := by simpa using h
  have h0 : i = 0 := by omega
  subst h0
  rfl

/-! ## WithHTTPCode -/

theorem WithHTTPCode_loop_found (e : erroneous) (code : Int) :
    ∀ (n i j : Nat), j - i ≤ n → i ≤ j → (j - i) % 2 = 0 →
      e.ctx[j]? = some (Val.str httpCode) →
      (∀ m, i ≤ m → m < j → (m - i) % 2 = 0 → e.ctx[m]? ≠ some (Val.str httpCode)) →
      j + 1 < e.ctx.length →
      erroneous.WithHTTPCode.loop e code i =
        .ok { error := e.error, ctx := e.ctx.set (j + 1) (Val.int code), stack := e.stack } := by
  intro n
  induction n with
  | zero =>
    intro i j hn hij _ hk _ hlt
    have hji : j = i := by omega
    subst hji
    rw [erroneous.WithHTTPCode.loop, if_pos (by omega), (index_eq_ok_iff e.ctx j _).mpr hk]
    simp [copy_make_exact, setIndex, hlt]
  | succ n ih =>
    intro i j hn hij hpar hk hfirst hlt
    by_cases hji : j = i
    · subst hji
      rw [erroneous.WithHTTPCode.loop, if_pos (by omega), (index_eq_ok_iff e.ctx j _).mpr hk]
      simp [copy_make_exact, setIndex, hlt]
    · have hi : i < e.ctx.length := by omega
      have hne : e.ctx[i] ≠ Val.str httpCode := by
        intro heq
        apply hfirst i (Nat.le_refl i) (by omega) (by simp)
        rw [List.getElem?_eq_getElem hi, heq]
      rw [erroneous.WithHTTPCode.loop, if_pos hi, index_of_lt e.ctx i hi]
      simp only [hne, if_false]
      apply ih (i + 2) j (by omega) (by omega) (by omega) hk _ hlt
      intro m hm hmj hmpar
      exact hfirst m (by omega) hmj (by omega)

theorem WithHTTPCode_loop_absent (e : erroneous) (code : Int) :
    ∀ (n i : Nat), e.ctx.length - i ≤ n →
      (∀ m, i ≤ m → m < e.ctx.length → (m - i) % 2 = 0 →
        e.ctx[m]? ≠ some (Val.str httpCode)) →
      erroneous.WithHTTPCode.loop e code i =
        e.WithContext [Val.str httpCode, Val.int code] := by
  intro n
  induction n with
  | zero =>
    intro i hn _
    rw [erroneous.WithHTTPCode.loop, if_neg (by omega)]
  | succ n ih =>
    intro i hn habs
    rw [erroneous.WithHTTPCode.loop]
    by_cases hi : i < e.ctx.length
    · have hne : e.ctx[i] ≠ Val.str httpCode := by
        intro heq
        apply habs i (Nat.le_refl i) hi (by simp)
        rw [List.getElem?_eq_getElem hi, heq]
      rw [if_pos hi, index_of_lt e.ctx i hi]
      simp only [hne, if_false]
      apply ih (i + 2) (by omega)
      intro m hm hmlt hmpar
      exact habs m (by omega) hmlt (by omega)
    · rw [if_neg hi]

theorem WithHTTPCode_of_firstKey (e : erroneous) (code : Int) (i : Nat)
    (hf : FirstKeyAt e.ctx httpCode i) (hlt : i + 1 < e.ctx.length) :
    e.WithHTTPCode code =
      .ok { error := e.error, ctx := e.ctx.set (i + 1) (Val.int code), stack := e.stack } := by
  obtain ⟨hpar, hk, hfirst⟩ := hf
  exact WithHTTPCode_loop_found e code i 0 i (by omega) (by omega) (by simpa using hpar) hk
    (fun m _ hmi hmpar => hfirst m hmi (by simpa using hmpar)) hlt

theorem WithHTTPCode_of_noKey (e : erroneous) (code : Int) (h : ¬ HasKey e.ctx httpCode) :
    e.WithHTTPCode code =
      .ok { error := e.error, ctx := e.ctx ++ [Val.str httpCode, Val.int code],
            stack := e.stack } := by
  have h1 : e.WithHTTPCode code = e.WithContext [Val.str httpCode, Val.int code] := by
    apply WithHTTPCode_loop_absent e code e.ctx.length 0 (by omega)
    intro m _ hmlt hmpar hk
    exact h ⟨m, hmlt, by simpa using hmpar, hk⟩
  rw [h1]
  exact WithContext_ok e _ _ (validate_valid _ (validCtx_httpCode code))

/-! ## Key positions under the context updates -/

theorem isString_iff (v : Val) : v.isString = true ↔ ∃ s, v = Val.str s := by
  cases v <;> simp [Val.isString]

theorem validCtx_set_odd (ctx : List Val) (i : Nat) (v : Val) (hpar : i % 2 = 0)
    (h : ValidCtx ctx) : ValidCtx (ctx.set (i + 1) v) := by
  obtain ⟨h1, h2⟩ := h
  refine ⟨by rw [List.length_set]; exact h1, ?_⟩
  intro j hj hjpar
  have hj2 : j < ctx.length := by simpa using hj
  have hne : i + 1 ≠ j := by omega
  rw [List.getElem_set_ne hne]
  exact h2 j hj2 hjpar

theorem firstKeyAt_set_odd (ctx : List Val) (k : String) (i m : Nat) (v : Val)
    (hm : m % 2 = 0) (hf : FirstKeyAt ctx k i) : FirstKeyAt (ctx.set (m + 1) v) k i := by
  obtain ⟨hpar, hk, hfirst⟩ := hf
  refine ⟨hpar, ?_, ?_⟩
  · rw [List.getElem?_set_ne (by omega)]
    exact hk
  · intro j hj hjpar
    rw [List.getElem?_set_ne (by omega)]
    exact hfirst j hj hjpar

theorem firstKeyAt_append_left (a b : List Val) (k : String) (i : Nat)
    (hf : FirstKeyAt a k i) : FirstKeyAt (a ++ b) k i := by
  have hi := firstKey_lt a k i hf
  obtain ⟨hpar, hk, hfirst⟩ := hf
  refine ⟨hpar, ?_, ?_⟩
  · rw [List.getElem?_append_left hi]
    exact hk
  · intro j hj hjpar
    rw [List.getElem?_append_left (by omega)]
    exact hfirst j hj hjpar

theorem firstKeyAt_append_right (a b : List Val) (k : String) (i : Nat)
    (hlen : a.length % 2 = 0) (hno : ¬ HasKey a k) (hf : FirstKeyAt b k i) :
    FirstKeyAt (a ++ b) k (a.length + i) := by
  obtain ⟨hpar, hk, hfirst⟩ := hf
  refine ⟨by omega, ?_, ?_⟩
  · rw [List.getElem?_append_right (by omega)]
    simpa using hk
  · intro j hj hjpar
    by_cases hja : j < a.length
    · rw [List.getElem?_append_left hja]
      intro hkj
      exact hno ⟨j, hja, hjpar, hkj⟩
    · rw [List.getElem?_append_right (by omega)]
      exact hfirst (j - a.length) (by omega) (by omega)

theorem not_hasKey_append (a b : List Val) (k : String) (hlen : a.length % 2 = 0)
    (ha : ¬ HasKey a k) (hb : ¬ HasKey b k) : ¬ HasKey (a ++ b) k := by
  rintro ⟨j, hj, hjpar, hkj⟩
  by_cases hja : j < a.length
  · rw [List.getElem?_append_left hja] at hkj
    exact ha ⟨j, hja, hjpar, hkj⟩
  · rw [List.getElem?_append_right (by omega)] at hkj
    rw [List.length_append] at hj
    exact hb ⟨j - a.length, by omega, by omega, hkj⟩

/-! ## Value and HTTPCode never fail -/

theorem Value_total (e : erroneous) (k : String) : ∃ v, e.Value k = .ok v := by
  by_cases h : HasKey e.ctx k
  · obtain ⟨i, hi, hf⟩ := firstKey_of_hasKey e.ctx k h
    by_cases hlt : i + 1 < e.ctx.length
    · exact ⟨e.ctx[i + 1], Value_of_firstKey e k i _ hf (List.getElem?_eq_getElem hlt)⟩
    · refine ⟨Val.nil, ?_⟩
      apply Value_loop_absent e k e.ctx.length 0 (by omega)
      intro m _ hmlt hmpar
      exact hf.2.2 m (by omega) (by simpa using hmpar)
  · exact ⟨Val.nil, Value_of_noKey e k h⟩

theorem HTTPCode_of_int (e : erroneous) (n : Int) (h : e.Value httpCode = .ok (Val.int n)) :
    e.HTTPCode = .ok n := by
  simp [erroneous.HTTPCode, h]

theorem HTTPCode_of_not_int (e : erroneous) (v : Val) (h : e.Value httpCode = .ok v)
    (hv : ∀ n, v ≠ Val.int n) : e.HTTPCode = .ok 500 := by
  unfold erroneous.HTTPCode
  rw [h]
  cases v with
  | int n => exact absurd rfl (hv n)
  | nil => rfl
  | str s => rfl
  | other t => rfl

/-! ## The invariant of the reachable errors -/

theorem WithStack_ok (T : CallStack → CallStack) (self : Call) (callers : List Call)
    (e : erroneous) :
    e.WithStack T self callers =
      .ok { error := e.error, ctx := e.ctx, stack := T (some callers) } := by
  simp [erroneous.WithStack, sliceFrom, Trace]

theorem WithHTTPCode_valid (e e2 : erroneous) (code : Int) (hv : ValidCtx e.ctx)
    (h : e.WithHTTPCode code = .ok e2) : ValidCtx e2.ctx := by
  by_cases hk : HasKey e.ctx httpCode
  · obtain ⟨i, _, hf⟩ := firstKey_of_hasKey e.ctx httpCode hk
    rw [WithHTTPCode_of_firstKey e code i hf (firstKey_succ_lt e.ctx httpCode i hv.1 hf)] at h
    cases h
    exact validCtx_set_odd e.ctx i _ hf.1 hv
  · rw [WithHTTPCode_of_noKey e code hk] at h
    cases h
    exact validCtx_append _ _ hv (validCtx_httpCode code)

theorem reachable_validCtx (e : erroneous) (h : Reachable e) : ValidCtx e.ctx := by
  induction h with
  | wrap T self callers c ctx e hw =>
    obtain ⟨v, hv⟩ := validate_total ctx
    rw [Wrap_plain T self callers c ctx v hv] at hw
    cases hw
    exact validate_result_valid ctx v hv
  | withContext e pairs e2 _ hw ih =>
    obtain ⟨v, hv⟩ := validate_total pairs
    rw [WithContext_ok e pairs v hv] at hw
    cases hw
    exact validCtx_append _ _ ih (validate_result_valid pairs v hv)
  | withHTTPCode e code e2 _ hw ih =>
    exact WithHTTPCode_valid e e2 code ih hw
  | withStack T self callers e e2 _ hw ih =>
    rw [WithStack_ok] at hw
    cases hw
    exact ih

/-! ## The properties of Wrap -/

/-- C1: for a cause that is not nil and not already annotated, the context of
the wrapped error is the supplied ctx itself when ctx has even length and a
string at every even index, the sentinel pair with the message "invalid
context, odd length" when ctx has odd length (whatever its elements), and the
sentinel pair with the message "invalid context, even-position not a string"
when ctx has even length and some element at an even index is not a string. -/
theorem Wrap_Context (T : CallStack → CallStack) (self : Call) (callers : List Call)
    (c : Nat) (ctx : List Val) :
    (ctx.length % 2 = 0 →
      (∀ i (h : i < ctx.length), i % 2 = 0 → ∃ s, ctx[i] = Val.str s) →
      ∃ e, Wrap T self callers (GoError.plain c) ctx = .ok (some e) ∧ e.Context = ctx) ∧
    (ctx.length % 2 = 1 →
      ∃ e, Wrap T self callers (GoError.plain c) ctx = .ok (some e) ∧
        e.Context = [Val.str "ERRONEOUS_ERROR", Val.str "invalid context, odd length"]) ∧
    (ctx.length % 2 = 0 →
      (∃ i, ∃ h : i < ctx.length, i % 2 = 0 ∧ ∀ s, ctx[i] ≠ Val.str s) →
      ∃ e, Wrap T self callers (GoError.plain c) ctx = .ok (some e) ∧
        e.Context =
          [Val.str "ERRONEOUS_ERROR", Val.str "invalid context, even-position not a string"]) := by
  refine ⟨?_, ?_, ?_⟩
  · intro hlen hs
    have hv : ValidCtx ctx := ⟨hlen, fun i h hpar => (isString_iff _).mpr (hs i h hpar)⟩
    exact ⟨_, Wrap_plain T self callers c ctx ctx (validate_valid ctx hv), rfl⟩
  · intro hlen
    exact ⟨_, Wrap_plain T self callers c ctx _ (validate_odd ctx hlen), rfl⟩
  · rintro hlen ⟨i, h, hpar, hns⟩
    have hn : ¬ StringKeys ctx := by
      intro hs
      obtain ⟨s, hstr⟩ := (isString_iff _).mp (hs i h hpar)
      exact hns s hstr
    exact ⟨_, Wrap_plain T self callers c ctx _ (validate_notString ctx hlen hn), rfl⟩

/-- Witness of C1: `Wrap(err, "foo", "bar")`, `Wrap(err, 14)` and
`Wrap(err, 14, "x")`. -/
theorem Wrap_Context_witness :
    (∃ e, Wrap id ⟨0⟩ [⟨1⟩] (GoError.plain 0) [Val.str "foo", Val.str "bar"] = .ok (some e) ∧
      e.Context = [Val.str "foo", Val.str "bar"]) ∧
    (∃ e, Wrap id ⟨0⟩ [⟨1⟩] (GoError.plain 0) [Val.int 14] = .ok (some e) ∧
      e.Context = [Val.str "ERRONEOUS_ERROR", Val.str "invalid context, odd length"]) ∧
    (∃ e, Wrap id ⟨0⟩ [⟨1⟩] (GoError.plain 0) [Val.int 14, Val.str "x"] = .ok (some e) ∧
      e.Context =
        [Val.str "ERRONEOUS_ERROR", Val.str "invalid context, even-position not a string"]) :=
  ⟨(Wrap_Context id ⟨0⟩ [⟨1⟩] 0 [Val.str "foo", Val.str "bar"]).1 (by decide)
      (by
        intro i h hpar
        have h2 : i < 2 := h
        have h0 : i = 0 := by omega
        subst h0
        exact ⟨"foo", rfl⟩),
    (Wrap_Context id ⟨0⟩ [⟨1⟩] 0 [Val.int 14]).2.1 (by decide),
    (Wrap_Context id ⟨0⟩ [⟨1⟩] 0 [Val.int 14, Val.str "x"]).2.2 (by decide)
      ⟨0, by decide, by decide, by intro s; simp⟩⟩

/-- C2: every annotated error reachable from Wrap by WithContext (with any
arguments), WithHTTPCode and WithStack has a context of even length with a
string at every even index. -/
theorem Reachable_Context_shape (e : erroneous) (h : Reachable e) :
    e.Context.length % 2 = 0 ∧
      ∀ i (hi : i < e.Context.length), i % 2 = 0 → ∃ s, e.Context[i] = Val.str s := by
  have hv := reachable_validCtx e h
  exact ⟨hv.1, fun i hi hpar => (isString_iff _).mp (hv.2 i hi hpar)⟩

/-- Witness of C2: the error of `Wrap(err, "keyonly").WithContext(14, "x")`. -/
theorem Reachable_Context_shape_witness :
    (erroneous.Context
      { error := GoError.plain 0,
        ctx := [Val.str "ERRONEOUS_ERROR", Val.str "invalid context, odd length",
                Val.str "ERRONEOUS_ERROR",
                Val.str "invalid context, even-position not a string"],
        stack := some [⟨1⟩] }).length % 2 = 0 ∧
      ∀ i (hi : i < (erroneous.Context
          { error := GoError.plain 0,
            ctx := [Val.str "ERRONEOUS_ERROR", Val.str "invalid context, odd length",
                    Val.str "ERRONEOUS_ERROR",
                    Val.str "invalid context, even-position not a string"],
            stack := some [⟨1⟩] }).length), i % 2 = 0 →
        ∃ s, (erroneous.Context
          { error := GoError.plain 0,
            ctx := [Val.str "ERRONEOUS_ERROR", Val.str "invalid context, odd length",
                    Val.str "ERRONEOUS_ERROR",
                    Val.str "invalid context, even-position not a string"],
            stack := some [⟨1⟩] })[i] = Val.str s :=
  Reachable_Context_shape _
    (Reachable.withContext
      { error := GoError.plain 0,
        ctx := [Val.str "ERRONEOUS_ERROR", Val.str "invalid context, odd length"],
        stack := some [⟨1⟩] }
      [Val.int 14, Val.str "x"] _
      (Reachable.wrap id ⟨0⟩ [⟨1⟩] 0 [Val.str "keyonly"] _
        (Wrap_plain id ⟨0⟩ [⟨1⟩] 0 [Val.str "keyonly"] _ (validate_odd _ (by decide))))
      (WithContext_ok _ _ _ (validate_notString _ (by decide) (by decide))))

/-- C3: Wrap of the nil error is nil whatever context is supplied, and Wrap of
an error that is not nil is not nil. -/
theorem Wrap_nil_iff (T : CallStack → CallStack) (self : Call) (callers : List Call)
    (ctx : List Val) :
    Wrap T self callers GoError.nil ctx = .ok none ∧
    ∀ err, err ≠ GoError.nil → ∃ e, Wrap T self callers err ctx = .ok (some e) := by
  refine ⟨by simp [Wrap], ?_⟩
  intro err hne
  cases err with
  | nil => exact absurd rfl hne
  | plain c =>
    obtain ⟨v, hv⟩ := validate_total ctx
    exact ⟨_, Wrap_plain T self callers c ctx v hv⟩
  | annotated c x s =>
    exact ⟨⟨c, x, s⟩, Wrap_annotated T self callers ⟨c, x, s⟩ ctx⟩

/-- Witness of C3: `Wrap(nil, "keyonly")` and `Wrap(err, "keyonly")`. -/
theorem Wrap_nil_iff_witness :
    Wrap id ⟨0⟩ [⟨1⟩] GoError.nil [Val.str "keyonly"] = .ok none ∧
    ∃ e, Wrap id ⟨0⟩ [⟨1⟩] (GoError.plain 0) [Val.str "keyonly"] = .ok (some e) :=
  ⟨(Wrap_nil_iff id ⟨0⟩ [⟨1⟩] [Val.str "keyonly"]).1,
    (Wrap_nil_iff id ⟨0⟩ [⟨1⟩] [Val.str "keyonly"]).2 (GoError.plain 0) (by decide)⟩

/-- C4: Wrap of an already annotated error e returns e itself whatever context
is supplied (the context is neither validated nor appended, the stack is not
captured again), so its Context, Unwrap and Stack are those of e; and wrapping
the result of a Wrap once more returns that result. -/
theorem Wrap_idempotent (T : CallStack → CallStack) (self : Call) (callers : List Call) :
    (∀ (e : erroneous) (ctx : List Val),
      ∃ r, Wrap T self callers (Error.toGoError (some e)) ctx = .ok (some r) ∧ r = e ∧
        r.Context = e.Context ∧ r.Unwrap = e.Unwrap ∧ r.Stack = e.Stack) ∧
    (∀ (T1 : CallStack → CallStack) (self1 : Call) (callers1 : List Call) (err : GoError)
        (a b : List Val),
      ∃ r, Wrap T1 self1 callers1 err a = .ok r ∧
        Wrap T self callers (Error.toGoError r) b = .ok r) := by
  refine ⟨fun e ctx => ⟨e, Wrap_annotated T self callers e ctx, rfl, rfl, rfl, rfl⟩, ?_⟩
  intro T1 self1 callers1 err a b
  cases err with
  | nil => exact ⟨none, by simp [Wrap], by simp [Wrap, Error.toGoError]⟩
  | plain c =>
    obtain ⟨v, hv⟩ := validate_total a
    exact ⟨_, Wrap_plain T1 self1 callers1 c a v hv, Wrap_annotated T self callers _ b⟩
  | annotated c x s =>
    exact ⟨some ⟨c, x, s⟩, Wrap_annotated T1 self1 callers1 ⟨c, x, s⟩ a,
      Wrap_annotated T self callers _ b⟩

/-- C5: for a cause c that is not nil and not already annotated, and any
context arguments, Unwrap of the wrapped error is c. -/
theorem Wrap_Unwrap (T : CallStack → CallStack) (self : Call) (callers : List Call)
    (c : Nat) (ctx : List Val) :
    ∃ e, Wrap T self callers (GoError.plain c) ctx = .ok (some e) ∧
      e.Unwrap = GoError.plain c := by
  obtain ⟨v, hv⟩ := validate_total ctx
  exact ⟨_, Wrap_plain T self callers c ctx v hv, rfl⟩

/-! ## The properties of the accessors -/

/-- C6: Value of k is the element paired with the first key position of k,
that is the element at index i + 1 for the smallest even index i that holds
the string k, and nil when no even index holds k; an element at an odd index
is never matched as a key, and a later duplicate of the key is shadowed. In a
context of even length the paired element exists. -/
theorem Value_first_match (e : erroneous) (k : String) :
    (∀ i v, FirstKeyAt e.Context k i → e.Context[i + 1]? = some v → e.Value k = .ok v) ∧
    (∀ i, FirstKeyAt e.Context k i → e.Context.length % 2 = 0 →
      ∃ v, e.Context[i + 1]? = some v ∧ e.Value k = .ok v) ∧
    (¬ HasKey e.Context k → e.Value k = .ok Val.nil) := by
  refine ⟨fun i v hf hv => Value_of_firstKey e k i v hf hv, ?_,
    fun h => Value_of_noKey e k h⟩
  intro i hf hlen
  have hlt : i + 1 < e.ctx.length := firstKey_succ_lt e.ctx k i hlen hf
  exact ⟨e.ctx[i + 1], List.getElem?_eq_getElem hlt,
    Value_of_firstKey e k i _ hf (List.getElem?_eq_getElem hlt)⟩

/-- Witness of C6: in the context ("a", "k", "k", 1, "k", 2) the key "k" has
the value 1 (index 1 is a value, the pair at index 4 is shadowed), and the
key "1" is absent. -/
theorem Value_first_match_witness :
    erroneous.Value
      { error := GoError.plain 0,
        ctx := [Val.str "a", Val.str "k", Val.str "k", Val.int 1, Val.str "k", Val.int 2],
        stack := none } "k" = .ok (Val.int 1) ∧
    (∃ v, (erroneous.Context
      { error := GoError.plain 0,
        ctx := [Val.str "a", Val.str "k", Val.str "k", Val.int 1, Val.str "k", Val.int 2],
        stack := none })[2 + 1]? = some v ∧
      erroneous.Value
        { error := GoError.plain 0,
          ctx := [Val.str "a", Val.str "k", Val.str "k", Val.int 1, Val.str "k", Val.int 2],
          stack := none } "k" = .ok v) ∧
    erroneous.Value
      { error := GoError.plain 0,
        ctx := [Val.str "a", Val.str "k", Val.str "k", Val.int 1, Val.str "k", Val.int 2],
        stack := none } "1" = .ok Val.nil :=
  ⟨(Value_first_match _ "k").1 2 (Val.int 1) (by decide) (by decide),
    (Value_first_match _ "k").2.1 2 (by decide) (by decide),
    (Value_first_match _ "1").2.2 (by decide)⟩

/-- C7: HTTPCode is n when Value of "httpcode" is the int n and 500 when it is
anything else, so it is 500 when the key is absent and when the first
"httpcode" entry holds a value that is not an int, whatever later entries hold.
In particular it is 500 for `Wrap(c)` and n for `Wrap(c, "httpcode", n)`. -/
theorem HTTPCode_spec (e : erroneous) :
    (∃ v, e.Value httpCode = .ok v) ∧
    (∀ n, e.Value httpCode = .ok (Val.int n) → e.HTTPCode = .ok n) ∧
    (∀ v, e.Value httpCode = .ok v → (∀ n, v ≠ Val.int n) → e.HTTPCode = .ok 500) ∧
    (¬ HasKey e.Context httpCode → e.HTTPCode = .ok 500) ∧
    (∀ i v, FirstKeyAt e.Context httpCode i → e.Context[i + 1]? = some v →
      (∀ n, v ≠ Val.int n) → e.HTTPCode = .ok 500) ∧
    (∀ (T : CallStack → CallStack) (self : Call) (callers : List Call) (c : Nat),
      ∃ w, Wrap T self callers (GoError.plain c) [] = .ok (some w) ∧ w.HTTPCode = .ok 500) ∧
    (∀ (T : CallStack → CallStack) (self : Call) (callers : List Call) (c : Nat) (n : Int),
      ∃ w, Wrap T self callers (GoError.plain c) [Val.str "httpcode", Val.int n] =
          .ok (some w) ∧ w.HTTPCode = .ok n) := by
  refine ⟨Value_total e httpCode, fun n h => HTTPCode_of_int e n h,
    fun v h hv => HTTPCode_of_not_int e v h hv, ?_, ?_, ?_, ?_⟩
  · intro h
    exact HTTPCode_of_not_int e Val.nil (Value_of_noKey e httpCode h) (by intro n; simp)
  · intro i v hf hv hn
    exact HTTPCode_of_not_int e v (Value_of_firstKey e httpCode i v hf hv) hn
  · intro T self callers c
    refine ⟨_, Wrap_plain T self callers c [] [] (validate_valid [] (by decide)), ?_⟩
    apply HTTPCode_of_not_int _ Val.nil _ (by intro n; simp)
    apply Value_of_noKey
    rintro ⟨i, hi, _⟩
    simp at hi
  · intro T self callers c n
    refine ⟨_, Wrap_plain T self callers c _ _ (validate_valid _ (validCtx_httpCode n)), ?_⟩
    apply HTTPCode_of_int
    apply Value_of_firstKey _ httpCode 0 (Val.int n)
    · refine ⟨rfl, rfl, ?_⟩
      intro j hj
      omega
    · rfl

/-- Witness of C7: the context ("httpcode", 404) gives 404, the context
("httpcode", "404", "httpcode", 404) gives 500, the empty context gives 500. -/
theorem HTTPCode_spec_witness :
    erroneous.HTTPCode
      { error := GoError.plain 0, ctx := [Val.str "httpcode", Val.int 404], stack := none } =
        .ok 404 ∧
    erroneous.HTTPCode
      { error := GoError.plain 0,
        ctx := [Val.str "httpcode", Val.str "404", Val.str "httpcode", Val.int 404],
        stack := none } = .ok 500 ∧
    erroneous.HTTPCode { error := GoError.plain 0, ctx := [], stack := none } = .ok 500 :=
  ⟨(HTTPCode_spec _).2.1 404
      (Value_of_firstKey _ httpCode 0 (Val.int 404) (by decide) (by decide)),
    (HTTPCode_spec _).2.2.2.2.1 0 (Val.str "404") (by decide) (by decide) (by intro n; simp),
    (HTTPCode_spec _).2.2.2.1 (by decide)⟩

/-! ## The properties of the mutators -/

/-- C8: the context of `e.WithContext(pairs...)` is the context of e followed
by the result of validate on pairs: the entries of e first and unchanged, then
pairs itself when pairs has even length and a string at every even index, and
otherwise the sentinel pair with the message of the violation (the context of
e is kept in every case). -/
theorem WithContext_Context (e : erroneous) (pairs : List Val) :
    (∃ c e2, validate pairs = .ok c ∧ e.WithContext pairs = .ok e2 ∧
      e2.Context = e.Context ++ c) ∧
    (pairs.length % 2 = 0 →
      (∀ i (h : i < pairs.length), i % 2 = 0 → ∃ s, pairs[i] = Val.str s) →
      ∃ e2, e.WithContext pairs = .ok e2 ∧ e2.Context = e.Context ++ pairs) ∧
    (pairs.length % 2 = 1 →
      ∃ e2, e.WithContext pairs = .ok e2 ∧
        e2.Context = e.Context ++
          [Val.str "ERRONEOUS_ERROR", Val.str "invalid context, odd length"]) ∧
    (pairs.length % 2 = 0 →
      (∃ i, ∃ h : i < pairs.length, i % 2 = 0 ∧ ∀ s, pairs[i] ≠ Val.str s) →
      ∃ e2, e.WithContext pairs = .ok e2 ∧
        e2.Context = e.Context ++
          [Val.str "ERRONEOUS_ERROR",
           Val.str "invalid context, even-position not a string"]) := by
  refine ⟨?_, ?_, ?_, ?_⟩
  · obtain ⟨c, hc⟩ := validate_total pairs
    exact ⟨c, _, hc, WithContext_ok e pairs c hc, rfl⟩
  · intro hlen hs
    have hv : ValidCtx pairs := ⟨hlen, fun i h hpar => (isString_iff _).mpr (hs i h hpar)⟩
    exact ⟨_, WithContext_ok e pairs pairs (validate_valid pairs hv), rfl⟩
  · intro hlen
    exact ⟨_, WithContext_ok e pairs _ (validate_odd pairs hlen), rfl⟩
  · rintro hlen ⟨i, h, hpar, hns⟩
    have hn : ¬ StringKeys pairs := by
      intro hs
      obtain ⟨s, hstr⟩ := (isString_iff _).mp (hs i h hpar)
      exact hns s hstr
    exact ⟨_, WithContext_ok e pairs _ (validate_notString pairs hlen hn), rfl⟩

/-- Witness of C8: on the context ("old", "context"), `WithContext("foo",
"bar")`, `WithContext("keyonly")` and `WithContext(14, "x")`. -/
theorem WithContext_Context_witness :
    (∃ e2, erroneous.WithContext
        { error := GoError.plain 0, ctx := [Val.str "old", Val.str "context"], stack := none }
        [Val.str "foo", Val.str "bar"] = .ok e2 ∧
      e2.Context = erroneous.Context
        { error := GoError.plain 0, ctx := [Val.str "old", Val.str "context"], stack := none }
        ++ [Val.str "foo", Val.str "bar"]) ∧
    (∃ e2, erroneous.WithContext
        { error := GoError.plain 0, ctx := [Val.str "old", Val.str "context"], stack := none }
        [Val.str "keyonly"] = .ok e2 ∧
      e2.Context = erroneous.Context
        { error := GoError.plain 0, ctx := [Val.str "old", Val.str "context"], stack := none }
        ++ [Val.str "ERRONEOUS_ERROR", Val.str "invalid context, odd length"]) ∧
    (∃ e2, erroneous.WithContext
        { error := GoError.plain 0, ctx := [Val.str "old", Val.str "context"], stack := none }
        [Val.int 14, Val.str "x"] = .ok e2 ∧
      e2.Context = erroneous.Context
        { error := GoError.plain 0, ctx := [Val.str "old", Val.str "context"], stack := none }
        ++ [Val.str "ERRONEOUS_ERROR",
            Val.str "invalid context, even-position not a string"]) :=
  ⟨(WithContext_Context _ [Val.str "foo", Val.str "bar"]).2.1 (by decide)
      (by
        intro i h hpar
        have h2 : i < 2 := h
        have h0 : i = 0 := by omega
        subst h0
        exact ⟨"foo", rfl⟩),
    (WithContext_Context _ [Val.str "keyonly"]).2.2.1 (by decide),
    (WithContext_Context _ [Val.int 14, Val.str "x"]).2.2.2 (by decide)
      ⟨0, by decide, by decide, by intro s; simp⟩⟩

/-- C9: for a reachable error e, any arguments pairs and any key k: when k is
a key of the context of e, Value of k after `WithContext(pairs...)` is Value of
k before (the old entry is inherited, never overridden); when k is not a key
of the context of e and pairs is valid, Value of k afterwards is the element
paired with the first key position of k in pairs, and nil when k is no key of
pairs. -/
theorem WithContext_Value (e : erroneous) (h : Reachable e) (pairs : List Val) (k : String) :
    ∃ e2, e.WithContext pairs = .ok e2 ∧
      (HasKey e.Context k → e2.Value k = e.Value k) ∧
      (¬ HasKey e.Context k → pairs.length % 2 = 0 →
        (∀ i (h : i < pairs.length), i % 2 = 0 → ∃ s, pairs[i] = Val.str s) →
        (∀ i, FirstKeyAt pairs k i → ∃ v, pairs[i + 1]? = some v ∧ e2.Value k = .ok v) ∧
        (¬ HasKey pairs k → e2.Value k = .ok Val.nil)) := by
  have hv := reachable_validCtx e h
  obtain ⟨c, hc⟩ := validate_total pairs
  refine ⟨_, WithContext_ok e pairs c hc, ?_, ?_⟩
  · intro hk
    obtain ⟨i, _, hf⟩ := firstKey_of_hasKey e.ctx k hk
    have hlt : i + 1 < e.ctx.length := firstKey_succ_lt e.ctx k i hv.1 hf
    rw [Value_of_firstKey e k i e.ctx[i + 1] hf (List.getElem?_eq_getElem hlt)]
    apply Value_of_firstKey _ k i
    · exact firstKeyAt_append_left e.ctx c k i hf
    · show (e.ctx ++ c)[i + 1]? = some e.ctx[i + 1]
      rw [List.getElem?_append_left hlt]
      exact List.getElem?_eq_getElem hlt
  · intro hno hlen hs
    have hp : ValidCtx pairs := ⟨hlen, fun i h hpar => (isString_iff _).mpr (hs i h hpar)⟩
    rw [validate_valid pairs hp] at hc
    cases hc
    refine ⟨?_, ?_⟩
    · intro i hf
      have hlt : i + 1 < pairs.length := firstKey_succ_lt pairs k i hlen hf
      refine ⟨pairs[i + 1], List.getElem?_eq_getElem hlt, ?_⟩
      apply Value_of_firstKey _ k (e.ctx.length + i)
      · exact firstKeyAt_append_right e.ctx pairs k i hv.1 hno hf
      · show (e.ctx ++ pairs)[e.ctx.length + i + 1]? = some pairs[i + 1]
        rw [List.getElem?_append_right (by omega)]
        have hidx : e.ctx.length + i + 1 - e.ctx.length = i + 1 := by omega
        rw [hidx]
        exact List.getElem?_eq_getElem hlt
    · intro hnp
      apply Value_of_noKey
      exact not_hasKey_append e.ctx pairs k hv.1 hno hnp

/-- Witness of C9: on the error of `Wrap(err, "old", "context")`, after
`WithContext("foo", "bar", "spam", "eggs")` the key "old" has the value it had
and the key "spam" has the element at index 3 of the arguments. -/
theorem WithContext_Value_witness :
    (∃ e2, erroneous.WithContext
        { error := GoError.plain 0, ctx := [Val.str "old", Val.str "context"],
          stack := some [⟨1⟩] }
        [Val.str "foo", Val.str "bar", Val.str "spam", Val.str "eggs"] = .ok e2 ∧
      e2.Value "old" = erroneous.Value
        { error := GoError.plain 0, ctx := [Val.str "old", Val.str "context"],
          stack := some [⟨1⟩] } "old") ∧
    (∃ e2, erroneous.WithContext
        { error := GoError.plain 0, ctx := [Val.str "old", Val.str "context"],
          stack := some [⟨1⟩] }
        [Val.str "foo", Val.str "bar", Val.str "spam", Val.str "eggs"] = .ok e2 ∧
      ∃ v, [Val.str "foo", Val.str "bar", Val.str "spam", Val.str "eggs"][2 + 1]? = some v ∧
        e2.Value "spam" = .ok v) := by
  have hr : Reachable
      { error := GoError.plain 0, ctx := [Val.str "old", Val.str "context"],
        stack := some [⟨1⟩] } :=
    Reachable.wrap id ⟨0⟩ [⟨1⟩] 0 [Val.str "old", Val.str "context"] _
      (Wrap_plain id ⟨0⟩ [⟨1⟩] 0 _ _ (validate_valid _ (by decide)))
  constructor
  · obtain ⟨e2, h1, h2, _⟩ := WithContext_Value _ hr
      [Val.str "foo", Val.str "bar", Val.str "spam", Val.str "eggs"] "old"
    exact ⟨e2, h1, h2 (by decide)⟩
  · obtain ⟨e2, h1, _, h3⟩ := WithContext_Value _ hr
      [Val.str "foo", Val.str "bar", Val.str "spam", Val.str "eggs"] "spam"
    exact ⟨e2, h1, (h3 (by decide) (by decide)
      (fun i h hpar => (isString_iff _).mp
        ((by decide :
          StringKeys [Val.str "foo", Val.str "bar", Val.str "spam", Val.str "eggs"])
          i h hpar))).1 2 (by decide)⟩

/-- C10: for a reachable error e, whatever its context holds, and every int
code, HTTPCode of `e.WithHTTPCode(code)` is code. -/
theorem WithHTTPCode_HTTPCode (e : erroneous) (h : Reachable e) (code : Int) :
    ∃ e2, e.WithHTTPCode code = .ok e2 ∧ e2.HTTPCode = .ok code := by
  have hv := reachable_validCtx e h
  by_cases hk : HasKey e.ctx httpCode
  · obtain ⟨i, _, hf⟩ := firstKey_of_hasKey e.ctx httpCode hk
    have hlt : i + 1 < e.ctx.length := firstKey_succ_lt e.ctx httpCode i hv.1 hf
    refine ⟨_, WithHTTPCode_of_firstKey e code i hf hlt, ?_⟩
    apply HTTPCode_of_int
    apply Value_of_firstKey _ httpCode i
    · exact firstKeyAt_set_odd e.ctx httpCode i i _ hf.1 hf
    · show (e.ctx.set (i + 1) (Val.int code))[i + 1]? = some (Val.int code)
      rw [List.getElem?_set_self hlt]
  · refine ⟨_, WithHTTPCode_of_noKey e code hk, ?_⟩
    apply HTTPCode_of_int
    apply Value_of_firstKey _ httpCode (e.ctx.length + 0)
    · apply firstKeyAt_append_right e.ctx _ httpCode 0 hv.1 hk
      refine ⟨rfl, rfl, ?_⟩
      intro j hj
      omega
    · show (e.ctx ++ [Val.str httpCode, Val.int code])[e.ctx.length + 0 + 1]? =
        some (Val.int code)
      rw [List.getElem?_append_right (by omega)]
      have hidx : e.ctx.length + 0 + 1 - e.ctx.length = 1 := by omega
      rw [hidx]
      rfl

/-- Witness of C10: on the error of `Wrap(err, "httpcode", "x", "httpcode", 5)`,
whose first "httpcode" entry holds a string, `WithHTTPCode(409)` gives an error
with HTTPCode 409. -/
theorem WithHTTPCode_HTTPCode_witness :
    ∃ e2, erroneous.WithHTTPCode
        { error := GoError.plain 0,
          ctx := [Val.str "httpcode", Val.str "x", Val.str "httpcode", Val.int 5],
          stack := some [⟨1⟩] } 409 = .ok e2 ∧
      e2.HTTPCode = .ok 409 :=
  WithHTTPCode_HTTPCode _
    (Reachable.wrap id ⟨0⟩ [⟨1⟩] 0
      [Val.str "httpcode", Val.str "x", Val.str "httpcode", Val.int 5] _
      (Wrap_plain id ⟨0⟩ [⟨1⟩] 0 _ _ (validate_valid _ (by decide)))) 409

/-! ## Further lemmas on the mutators -/

theorem Value_append_of_hasKey (e : erroneous) (c : List Val) (k : String)
    (hlen : e.ctx.length % 2 = 0) (hk : HasKey e.ctx k) :
    erroneous.Value { error := e.error, ctx := e.ctx ++ c, stack := e.stack } k = e.Value k := by
  obtain ⟨i, _, hf⟩ := firstKey_of_hasKey e.ctx k hk
  have hlt : i + 1 < e.ctx.length := firstKey_succ_lt e.ctx k i hlen hf
  rw [Value_of_firstKey e k i e.ctx[i + 1] hf (List.getElem?_eq_getElem hlt)]
  apply Value_of_firstKey _ k i
  · exact firstKeyAt_append_left e.ctx c k i hf
  · show (e.ctx ++ c)[i + 1]? = some e.ctx[i + 1]
    rw [List.getElem?_append_left hlt]
    exact List.getElem?_eq_getElem hlt

theorem HTTPCode_congr (e1 e2 : erroneous) (h : e1.Value httpCode = e2.Value httpCode) :
    e1.HTTPCode = e2.HTTPCode := by
  unfold erroneous.HTTPCode
  rw [h]

theorem hasKey_of_firstKey (ctx : List Val) (k : String) (i : Nat) (hf : FirstKeyAt ctx k i) :
    HasKey ctx k :=
  ⟨i, firstKey_lt ctx k i hf, hf.1, hf.2.1⟩

theorem firstKeyAt_httpCode_end (ctx : List Val) (code : Int) (hlen : ctx.length % 2 = 0)
    (hk : ¬ HasKey ctx httpCode) :
    FirstKeyAt (ctx ++ [Val.str httpCode, Val.int code]) httpCode (ctx.length + 0) := by
  apply firstKeyAt_append_right ctx _ httpCode 0 hlen hk
  refine ⟨rfl, rfl, ?_⟩
  intro j hj
  omega

theorem set_httpCode_end (ctx : List Val) (a b : Int) :
    (ctx ++ [Val.str httpCode, Val.int a]).set (ctx.length + 0 + 1) (Val.int b) =
      ctx ++ [Val.str httpCode, Val.int b] := by
  induction ctx with
  | nil => rfl
  | cons x xs ih =>
    simp only [List.cons_append, List.length_cons]
    have hidx : xs.length + 1 + 0 + 1 = (xs.length + 0 + 1) + 1 := by omega
    rw [hidx, List.set_cons_succ, ih]

/-- The result of WithHTTPCode on a context of even length: the value of the
first "httpcode" key is replaced, or the pair is appended. -/
theorem WithHTTPCode_cases (e : erroneous) (code : Int) (hlen : e.ctx.length % 2 = 0) :
    (∃ i, FirstKeyAt e.ctx httpCode i ∧ i + 1 < e.ctx.length ∧
      e.WithHTTPCode code =
        .ok { error := e.error, ctx := e.ctx.set (i + 1) (Val.int code), stack := e.stack }) ∨
    (¬ HasKey e.ctx httpCode ∧
      e.WithHTTPCode code =
        .ok { error := e.error, ctx := e.ctx ++ [Val.str httpCode, Val.int code],
              stack := e.stack }) := by
  by_cases hk : HasKey e.ctx httpCode
  · obtain ⟨i, _, hf⟩ := firstKey_of_hasKey e.ctx httpCode hk
    have hlt : i + 1 < e.ctx.length := firstKey_succ_lt e.ctx httpCode i hlen hf
    exact Or.inl ⟨i, hf, hlt, WithHTTPCode_of_firstKey e code i hf hlt⟩
  · exact Or.inr ⟨hk, WithHTTPCode_of_noKey e code hk⟩

/-- After WithHTTPCode on a context of even length the key "httpcode" is
present and HTTPCode is the code. -/
theorem WithHTTPCode_then_HTTPCode (e : erroneous) (code : Int)
    (hlen : e.ctx.length % 2 = 0) :
    ∃ e2, e.WithHTTPCode code = .ok e2 ∧ e2.HTTPCode = .ok code ∧ HasKey e2.ctx httpCode := by
  rcases WithHTTPCode_cases e code hlen with ⟨i, hf, hlt, hw⟩ | ⟨hk, hw⟩
  · have hf2 : FirstKeyAt (e.ctx.set (i + 1) (Val.int code)) httpCode i :=
      firstKeyAt_set_odd e.ctx httpCode i i _ hf.1 hf
    refine ⟨_, hw, ?_, hasKey_of_firstKey _ _ i hf2⟩
    apply HTTPCode_of_int
    apply Value_of_firstKey _ httpCode i _ hf2
    show (e.ctx.set (i + 1) (Val.int code))[i + 1]? = some (Val.int code)
    rw [List.getElem?_set_self hlt]
  · have hf2 := firstKeyAt_httpCode_end e.ctx code hlen hk
    refine ⟨_, hw, ?_, hasKey_of_firstKey _ _ _ hf2⟩
    apply HTTPCode_of_int
    apply Value_of_firstKey _ httpCode (e.ctx.length + 0) _ hf2
    show (e.ctx ++ [Val.str httpCode, Val.int code])[e.ctx.length + 0 + 1]? =
      some (Val.int code)
    rw [List.getElem?_append_right (by omega)]
    have hidx : e.ctx.length + 0 + 1 - e.ctx.length = 1 := by omega
    rw [hidx]
    rfl

theorem WithHTTPCode_loop_frame (e e2 : erroneous) (code : Int) :
    ∀ (n i : Nat), e.ctx.length - i ≤ n → erroneous.WithHTTPCode.loop e code i = .ok e2 →
      e2.error = e.error ∧ e2.stack = e.stack := by
  intro n
  induction n with
  | zero =>
    intro i hn h
    rw [erroneous.WithHTTPCode.loop, if_neg (by omega),
      WithContext_ok e _ _ (validate_valid _ (validCtx_httpCode code))] at h
    cases h
    exact ⟨rfl, rfl⟩
  | succ n ih =>
    intro i hn h
    rw [erroneous.WithHTTPCode.loop] at h
    by_cases hi : i < e.ctx.length
    · rw [if_pos hi, index_of_lt e.ctx i hi] at h
      by_cases hk : e.ctx[i] = Val.str httpCode
      · simp only [hk, if_true, copy_make_exact, setIndex] at h
        by_cases hlt : i + 1 < e.ctx.length
        · simp only [hlt, if_true] at h
          cases h
          exact ⟨rfl, rfl⟩
        · simp [hlt] at h
      · simp only [hk, if_false] at h
        exact ih (i + 2) (by omega) h
    · rw [if_neg hi, WithContext_ok e _ _ (validate_valid _ (validCtx_httpCode code))] at h
      cases h
      exact ⟨rfl, rfl⟩

/-- On a context of odd length that ends with the key "httpcode" the index
assignment of WithHTTPCode is out of range. -/
theorem WithHTTPCode_odd_fails :
    erroneous.WithHTTPCode
      { error := GoError.plain 0, ctx := [Val.str "httpcode"], stack := none } 404 =
        .error RuntimeError.indexOutOfRange := by
  simp [erroneous.WithHTTPCode, erroneous.WithHTTPCode.loop, index, httpCode, make, copy,
    setIndex]

theorem HTTPCode_total (e : erroneous) : ∃ n, e.HTTPCode = .ok n := by
  obtain ⟨v, hv⟩ := Value_total e httpCode
  cases v with
  | int n => exact ⟨n, HTTPCode_of_int e n hv⟩
  | nil => exact ⟨500, HTTPCode_of_not_int e _ hv (by intro n; simp)⟩
  | str s => exact ⟨500, HTTPCode_of_not_int e _ hv (by intro n; simp)⟩
  | other t => exact ⟨500, HTTPCode_of_not_int e _ hv (by intro n; simp)⟩

theorem Wrap_total (T : CallStack → CallStack) (self : Call) (callers : List Call)
    (err : GoError) (ctx : List Val) : ∃ r, Wrap T self callers err ctx = .ok r := by
  cases err with
  | nil => exact ⟨none, by simp [Wrap]⟩
  | plain c =>
    obtain ⟨v, hv⟩ := validate_total ctx
    exact ⟨_, Wrap_plain T self callers c ctx v hv⟩
  | annotated c x s =>
    exact ⟨some ⟨c, x, s⟩, Wrap_annotated T self callers ⟨c, x, s⟩ ctx⟩

theorem not_hasKey_badCtx (msg k : String) (hk : k ≠ "ERRONEOUS_ERROR") :
    ¬ HasKey (badCtx msg) k := by
  rintro ⟨i, hi, hpar, hki⟩
  have h2 : i < 2 := by simpa [badCtx] using hi
  have h0 : i = 0 := by omega
  subst h0
  simp [badCtx] at hki
  exact hk hki.symm

/-! ## Composition and frame properties of the mutators -/

/-- C11: for a reachable error e and ints a and b, the context of
`e.WithHTTPCode(a).WithHTTPCode(b)` is the context of `e.WithHTTPCode(b)`: the
second call replaces the value the first one set and appends nothing, so the
length of the context does not grow on the second call, and HTTPCode is b. -/
theorem WithHTTPCode_twice (e : erroneous) (h : Reachable e) (a b : Int) :
    ∃ e1 e2 e3, e.WithHTTPCode a = .ok e1 ∧ e1.WithHTTPCode b = .ok e2 ∧
      e.WithHTTPCode b = .ok e3 ∧
      e2.Context = e3.Context ∧
      e2.Context.length = e1.Context.length ∧
      e2.HTTPCode = .ok b := by
  have hv := reachable_validCtx e h
  rcases WithHTTPCode_cases e a hv.1 with ⟨i, hf, hlt, hw⟩ | ⟨hk, hw⟩
  · have hf1 : FirstKeyAt (e.ctx.set (i + 1) (Val.int a)) httpCode i :=
      firstKeyAt_set_odd e.ctx httpCode i i _ hf.1 hf
    have hlt1 : i + 1 < (e.ctx.set (i + 1) (Val.int a)).length := by
      rw [List.length_set]; exact hlt
    have hw2 := WithHTTPCode_of_firstKey
      { error := e.error, ctx := e.ctx.set (i + 1) (Val.int a), stack := e.stack } b i hf1 hlt1
    have hw3 := WithHTTPCode_of_firstKey e b i hf hlt
    obtain ⟨e4, hw4, hc4, _⟩ := WithHTTPCode_then_HTTPCode
      { error := e.error, ctx := e.ctx.set (i + 1) (Val.int a), stack := e.stack } b
      (by rw [List.length_set]; exact hv.1)
    rw [hw2] at hw4
    cases hw4
    refine ⟨_, _, _, hw, hw2, hw3, ?_, ?_, hc4⟩
    · show (e.ctx.set (i + 1) (Val.int a)).set (i + 1) (Val.int b) =
        e.ctx.set (i + 1) (Val.int b)
      rw [List.set_set]
    · show ((e.ctx.set (i + 1) (Val.int a)).set (i + 1) (Val.int b)).length =
        (e.ctx.set (i + 1) (Val.int a)).length
      rw [List.length_set]
  · have hf1 := firstKeyAt_httpCode_end e.ctx a hv.1 hk
    have hlt1 : e.ctx.length + 0 + 1 < (e.ctx ++ [Val.str httpCode, Val.int a]).length := by
      simp
    have hw2 := WithHTTPCode_of_firstKey
      { error := e.error, ctx := e.ctx ++ [Val.str httpCode, Val.int a], stack := e.stack }
      b (e.ctx.length + 0) hf1 hlt1
    have hw3 := WithHTTPCode_of_noKey e b hk
    obtain ⟨e4, hw4, hc4, _⟩ := WithHTTPCode_then_HTTPCode
      { error := e.error, ctx := e.ctx ++ [Val.str httpCode, Val.int a], stack := e.stack } b
      (by
        show (e.ctx ++ [Val.str httpCode, Val.int a]).length % 2 = 0
        have := hv.1
        simp
        omega)
    rw [hw2] at hw4
    cases hw4
    refine ⟨_, _, _, hw, hw2, hw3, ?_, ?_, hc4⟩
    · show (e.ctx ++ [Val.str httpCode, Val.int a]).set (e.ctx.length + 0 + 1) (Val.int b) =
        e.ctx ++ [Val.str httpCode, Val.int b]
      exact set_httpCode_end e.ctx a b
    · show ((e.ctx ++ [Val.str httpCode, Val.int a]).set (e.ctx.length + 0 + 1)
        (Val.int b)).length = (e.ctx ++ [Val.str httpCode, Val.int a]).length
      rw [List.length_set]

/-- Witness of C11: on the error of `Wrap(err)`, `WithHTTPCode(404)` followed
by `WithHTTPCode(409)`. -/
theorem WithHTTPCode_twice_witness :
    ∃ e1 e2 e3,
      erroneous.WithHTTPCode
        { error := GoError.plain 0, ctx := [], stack := some [⟨1⟩] } 404 = .ok e1 ∧
      e1.WithHTTPCode 409 = .ok e2 ∧
      erroneous.WithHTTPCode
        { error := GoError.plain 0, ctx := [], stack := some [⟨1⟩] } 409 = .ok e3 ∧
      e2.Context = e3.Context ∧
      e2.Context.length = e1.Context.length ∧
      e2.HTTPCode = .ok 409 :=
  WithHTTPCode_twice _
    (Reachable.wrap id ⟨0⟩ [⟨1⟩] 0 [] _
      (Wrap_plain id ⟨0⟩ [⟨1⟩] 0 _ _ (validate_valid _ (by decide)))) 404 409

/-- C12: each mutator changes only its own part: `e.WithContext(pairs...)` and
`e.WithHTTPCode(code)` have the Unwrap cause and the Stack of e, and
`e.WithStack()` has the Unwrap cause and the Context of e. WithContext and
WithStack return for every e; WithHTTPCode returns whenever the context of e
has even length. -/
theorem mutators_frame (e : erroneous) :
    (∀ pairs, ∃ e2, e.WithContext pairs = .ok e2 ∧
      e2.Unwrap = e.Unwrap ∧ e2.Stack = e.Stack) ∧
    (∀ code e2, e.WithHTTPCode code = .ok e2 →
      e2.Unwrap = e.Unwrap ∧ e2.Stack = e.Stack) ∧
    (e.Context.length % 2 = 0 → ∀ code, ∃ e2, e.WithHTTPCode code = .ok e2 ∧
      e2.Unwrap = e.Unwrap ∧ e2.Stack = e.Stack) ∧
    (∀ (T : CallStack → CallStack) (self : Call) (callers : List Call),
      ∃ e2, e.WithStack T self callers = .ok e2 ∧
        e2.Unwrap = e.Unwrap ∧ e2.Context = e.Context) := by
  refine ⟨?_, ?_, ?_, ?_⟩
  · intro pairs
    obtain ⟨c, hc⟩ := validate_total pairs
    exact ⟨_, WithContext_ok e pairs c hc, rfl, rfl⟩
  · intro code e2 hw
    exact WithHTTPCode_loop_frame e e2 code e.ctx.length 0 (by omega) hw
  · intro hlen code
    obtain ⟨e2, hw, _, _⟩ := WithHTTPCode_then_HTTPCode e code hlen
    exact ⟨e2, hw, WithHTTPCode_loop_frame e e2 code e.ctx.length 0 (by omega) hw⟩
  · intro T self callers
    exact ⟨_, WithStack_ok T self callers e, rfl, rfl⟩

/-- Witness of C12: `WithHTTPCode(404)` on the context ("old", "context"). -/
theorem mutators_frame_witness :
    (erroneous.Unwrap
        { error := GoError.plain 7,
          ctx := [Val.str "old", Val.str "context", Val.str "httpcode", Val.int 404],
          stack := some [⟨1⟩] } =
      erroneous.Unwrap
        { error := GoError.plain 7, ctx := [Val.str "old", Val.str "context"],
          stack := some [⟨1⟩] } ∧
      erroneous.Stack
        { error := GoError.plain 7,
          ctx := [Val.str "old", Val.str "context", Val.str "httpcode", Val.int 404],
          stack := some [⟨1⟩] } =
      erroneous.Stack
        { error := GoError.plain 7, ctx := [Val.str "old", Val.str "context"],
          stack := some [⟨1⟩] }) ∧
    (∃ e2, erroneous.WithHTTPCode
        { error := GoError.plain 7, ctx := [Val.str "old", Val.str "context"],
          stack := some [⟨1⟩] } 404 = .ok e2 ∧
      e2.Unwrap = GoError.plain 7 ∧ e2.Stack = some [⟨1⟩]) :=
  ⟨(mutators_frame
      { error := GoError.plain 7, ctx := [Val.str "old", Val.str "context"],
        stack := some [⟨1⟩] }).2.1 404 _
      (WithHTTPCode_of_noKey _ 404 (by decide)),
    (mutators_frame
      { error := GoError.plain 7, ctx := [Val.str "old", Val.str "context"],
        stack := some [⟨1⟩] }).2.2.1 (by decide) 404⟩

/-- C15: for a reachable error e and an int code: when "httpcode" is a key of
the context, with first key position i, the context of `e.WithHTTPCode(code)`
has the length of the context of e, holds code at index i + 1 and agrees with
the context of e at every other index (later "httpcode" entries included);
when "httpcode" is no key, it is the context of e followed by ("httpcode",
code), the context of `e.WithContext("httpcode", code)`. -/
theorem WithHTTPCode_Context (e : erroneous) (h : Reachable e) (code : Int) :
    ∃ e2, e.WithHTTPCode code = .ok e2 ∧
      (∀ i, FirstKeyAt e.Context httpCode i →
        e2.Context.length = e.Context.length ∧
        e2.Context[i + 1]? = some (Val.int code) ∧
        ∀ j, j ≠ i + 1 → e2.Context[j]? = e.Context[j]?) ∧
      (¬ HasKey e.Context httpCode →
        e2.Context = e.Context ++ [Val.str "httpcode", Val.int code] ∧
        ∃ e3, e.WithContext [Val.str "httpcode", Val.int code] = .ok e3 ∧
          e2.Context = e3.Context) := by
  have hv := reachable_validCtx e h
  rcases WithHTTPCode_cases e code hv.1 with ⟨i, hf, hlt, hw⟩ | ⟨hk, hw⟩
  · refine ⟨_, hw, ?_, ?_⟩
    · intro i2 hf2
      have hii : i2 = i := by
        rcases Nat.lt_trichotomy i2 i with hlt2 | heq | hgt
        · exact absurd hf2.2.1 (hf.2.2 i2 hlt2 hf2.1)
        · exact heq
        · exact absurd hf.2.1 (hf2.2.2 i hgt hf.1)
      subst hii
      refine ⟨?_, ?_, ?_⟩
      · show (e.ctx.set (i2 + 1) (Val.int code)).length = e.ctx.length
        rw [List.length_set]
      · show (e.ctx.set (i2 + 1) (Val.int code))[i2 + 1]? = some (Val.int code)
        rw [List.getElem?_set_self hlt]
      · intro j hj
        show (e.ctx.set (i2 + 1) (Val.int code))[j]? = e.ctx[j]?
        rw [List.getElem?_set_ne (Ne.symm hj)]
    · intro hno
      exact absurd (hasKey_of_firstKey e.ctx httpCode i hf) hno
  · refine ⟨_, hw, ?_, ?_⟩
    · intro i hf
      exact absurd (hasKey_of_firstKey e.ctx httpCode i hf) hk
    · intro _
      exact ⟨rfl, _, WithContext_ok e _ _ (validate_valid _ (validCtx_httpCode code)), rfl⟩

/-- Witness of C15: `WithHTTPCode(409)` on the error of
`Wrap(err, "httpcode", 404, "httpcode", 5)`, where index 1 is replaced and the
later duplicate at index 3 is left untouched. -/
theorem WithHTTPCode_Context_witness :
    ∃ e2, erroneous.WithHTTPCode
        { error := GoError.plain 0,
          ctx := [Val.str "httpcode", Val.int 404, Val.str "httpcode", Val.int 5],
          stack := some [⟨1⟩] } 409 = .ok e2 ∧
      e2.Context.length = 4 ∧
      e2.Context[0 + 1]? = some (Val.int 409) ∧
      e2.Context[3]? = some (Val.int 5) := by
  obtain ⟨e2, hw, h1, _⟩ := WithHTTPCode_Context
    { error := GoError.plain 0,
      ctx := [Val.str "httpcode", Val.int 404, Val.str "httpcode", Val.int 5],
      stack := some [⟨1⟩] }
    (Reachable.wrap id ⟨0⟩ [⟨1⟩] 0
      [Val.str "httpcode", Val.int 404, Val.str "httpcode", Val.int 5] _
      (Wrap_plain id ⟨0⟩ [⟨1⟩] 0 _ _ (validate_valid _ (by decide)))) 409
  obtain ⟨hlen, hval, hrest⟩ := h1 0 (by decide)
  exact ⟨e2, hw, hlen, hval, (hrest 3 (by decide)).trans rfl⟩

/-! ## Totality and the remaining consequences -/

/-- C16: on a reachable error no operation fails: every index expression and
index assignment of Value and WithHTTPCode is in range (an access out of range
is a run-time error of the embedding), and so are the index and slice
expressions of HTTPCode, WithContext and WithStack. The context of a reachable
error has even length, which is what puts the assignment of WithHTTPCode at
index i + 1 in range. -/
theorem reachable_total (e : erroneous) (h : Reachable e) :
    e.Context.length % 2 = 0 ∧
    (∀ k, ∃ v, e.Value k = .ok v) ∧
    (∃ n, e.HTTPCode = .ok n) ∧
    (∀ code, ∃ e2, e.WithHTTPCode code = .ok e2) ∧
    (∀ pairs, ∃ e2, e.WithContext pairs = .ok e2) ∧
    (∀ (T : CallStack → CallStack) (self : Call) (callers : List Call),
      ∃ e2, e.WithStack T self callers = .ok e2) := by
  have hv := reachable_validCtx e h
  refine ⟨hv.1, fun k => Value_total e k, HTTPCode_total e, ?_, ?_, ?_⟩
  · intro code
    obtain ⟨e2, hw, _, _⟩ := WithHTTPCode_then_HTTPCode e code hv.1
    exact ⟨e2, hw⟩
  · intro pairs
    obtain ⟨c, hc⟩ := validate_total pairs
    exact ⟨_, WithContext_ok e pairs c hc⟩
  · intro T self callers
    exact ⟨_, WithStack_ok T self callers e⟩

/-- Witness of C16: the error of `Wrap(err, "httpcode", 404)`. -/
theorem reachable_total_witness :
    (erroneous.Context
      { error := GoError.plain 0, ctx := [Val.str "httpcode", Val.int 404],
        stack := some [⟨1⟩] }).length % 2 = 0 ∧
    (∀ k, ∃ v, erroneous.Value
      { error := GoError.plain 0, ctx := [Val.str "httpcode", Val.int 404],
        stack := some [⟨1⟩] } k = .ok v) ∧
    (∃ n, erroneous.HTTPCode
      { error := GoError.plain 0, ctx := [Val.str "httpcode", Val.int 404],
        stack := some [⟨1⟩] } = .ok n) ∧
    (∀ code, ∃ e2, erroneous.WithHTTPCode
      { error := GoError.plain 0, ctx := [Val.str "httpcode", Val.int 404],
        stack := some [⟨1⟩] } code = .ok e2) ∧
    (∀ pairs, ∃ e2, erroneous.WithContext
      { error := GoError.plain 0, ctx := [Val.str "httpcode", Val.int 404],
        stack := some [⟨1⟩] } pairs = .ok e2) ∧
    (∀ (T : CallStack → CallStack) (self : Call) (callers : List Call),
      ∃ e2, erroneous.WithStack T self callers
        { error := GoError.plain 0, ctx := [Val.str "httpcode", Val.int 404],
          stack := some [⟨1⟩] } = .ok e2) :=
  reachable_total _
    (Reachable.wrap id ⟨0⟩ [⟨1⟩] 0 [Val.str "httpcode", Val.int 404] _
      (Wrap_plain id ⟨0⟩ [⟨1⟩] 0 _ _ (validate_valid _ (by decide))))

/-- C17: WithContext cannot override an existing key, the status code
included: for a reachable error e whose context has the key "httpcode" and
any arguments pairs, HTTPCode of `e.WithContext(pairs...)` is HTTPCode of e;
hence HTTPCode of `e.WithHTTPCode(c).WithContext("httpcode", n)` is c. -/
theorem WithContext_keeps_HTTPCode (e : erroneous) (h : Reachable e) :
    (HasKey e.Context httpCode → ∀ pairs,
      ∃ e2, e.WithContext pairs = .ok e2 ∧ e2.HTTPCode = e.HTTPCode) ∧
    (∀ c n : Int, ∃ e1 e2, e.WithHTTPCode c = .ok e1 ∧
      e1.WithContext [Val.str "httpcode", Val.int n] = .ok e2 ∧ e2.HTTPCode = .ok c) := by
  have hv := reachable_validCtx e h
  refine ⟨?_, ?_⟩
  · intro hk pairs
    obtain ⟨v, hc⟩ := validate_total pairs
    refine ⟨_, WithContext_ok e pairs v hc, ?_⟩
    exact HTTPCode_congr _ _ (Value_append_of_hasKey e v httpCode hv.1 hk)
  · intro c n
    obtain ⟨e1, hw, hcode, hk1⟩ := WithHTTPCode_then_HTTPCode e c hv.1
    have hv1 : ValidCtx e1.ctx := WithHTTPCode_valid e e1 c hv hw
    refine ⟨e1, _, hw,
      WithContext_ok e1 _ _ (validate_valid _ (validCtx_httpCode n)), ?_⟩
    rw [← hcode]
    exact HTTPCode_congr _ _ (Value_append_of_hasKey e1 _ httpCode hv1.1 hk1)

/-- Witness of C17: on the error of `Wrap(err, "httpcode", 404)`,
`WithContext("httpcode", 200)` leaves HTTPCode unchanged. -/
theorem WithContext_keeps_HTTPCode_witness :
    ∃ e2, erroneous.WithContext
        { error := GoError.plain 0, ctx := [Val.str "httpcode", Val.int 404],
          stack := some [⟨1⟩] }
        [Val.str "httpcode", Val.int 200] = .ok e2 ∧
      e2.HTTPCode = erroneous.HTTPCode
        { error := GoError.plain 0, ctx := [Val.str "httpcode", Val.int 404],
          stack := some [⟨1⟩] } :=
  (WithContext_keeps_HTTPCode _
    (Reachable.wrap id ⟨0⟩ [⟨1⟩] 0 [Val.str "httpcode", Val.int 404] _
      (Wrap_plain id ⟨0⟩ [⟨1⟩] 0 _ _ (validate_valid _ (by decide))))).1
    (by decide) [Val.str "httpcode", Val.int 200]

/-- C18: a shape violation at wrap time discards every supplied pair: for a
cause that is not nil and not annotated and a ctx of odd length, or of even
length with an element at an even index that is not a string, the wrapped
error has Value nil for every key other than "ERRONEOUS_ERROR" and HTTPCode
500, also when ctx begins with ("httpcode", n). -/
theorem Wrap_invalid_discards (T : CallStack → CallStack) (self : Call)
    (callers : List Call) (c : Nat) (ctx : List Val)
    (hbad : ctx.length % 2 = 1 ∨
      ∃ i, ∃ h : i < ctx.length, i % 2 = 0 ∧ ∀ s, ctx[i] ≠ Val.str s) :
    ∃ e, Wrap T self callers (GoError.plain c) ctx = .ok (some e) ∧
      (∀ k, k ≠ "ERRONEOUS_ERROR" → e.Value k = .ok Val.nil) ∧
      e.HTTPCode = .ok 500 := by
  have hmsg : ∃ msg, validate ctx = .ok (badCtx msg) := by
    by_cases hlen : ctx.length % 2 = 1
    · exact ⟨_, validate_odd ctx hlen⟩
    · rcases hbad with hodd | ⟨i, h, hpar, hns⟩
      · exact absurd hodd hlen
      · have hn : ¬ StringKeys ctx := by
          intro hs
          obtain ⟨s, hstr⟩ := (isString_iff _).mp (hs i h hpar)
          exact hns s hstr
        exact ⟨_, validate_notString ctx (by omega) hn⟩
  obtain ⟨msg, hval⟩ := hmsg
  refine ⟨_, Wrap_plain T self callers c ctx _ hval, ?_, ?_⟩
  · intro k hk
    exact Value_of_noKey _ k (not_hasKey_badCtx msg k hk)
  · apply HTTPCode_of_not_int _ Val.nil _ (by intro n; simp)
    exact Value_of_noKey _ httpCode (not_hasKey_badCtx msg httpCode (by decide))

/-- Witness of C18: `Wrap(err, "httpcode", 404, "foo")`, of odd length, and
`Wrap(err, "httpcode", 404, 14, "x")`, with a key that is not a string. -/
theorem Wrap_invalid_discards_witness :
    (∃ e, Wrap id ⟨0⟩ [⟨1⟩] (GoError.plain 0)
        [Val.str "httpcode", Val.int 404, Val.str "foo"] = .ok (some e) ∧
      (∀ k, k ≠ "ERRONEOUS_ERROR" → e.Value k = .ok Val.nil) ∧
      e.HTTPCode = .ok 500) ∧
    (∃ e, Wrap id ⟨0⟩ [⟨1⟩] (GoError.plain 0)
        [Val.str "httpcode", Val.int 404, Val.int 14, Val.str "x"] = .ok (some e) ∧
      (∀ k, k ≠ "ERRONEOUS_ERROR" → e.Value k = .ok Val.nil) ∧
      e.HTTPCode = .ok 500) :=
  ⟨Wrap_invalid_discards id ⟨0⟩ [⟨1⟩] 0 [Val.str "httpcode", Val.int 404, Val.str "foo"]
      (Or.inl (by decide)),
    Wrap_invalid_discards id ⟨0⟩ [⟨1⟩] 0
      [Val.str "httpcode", Val.int 404, Val.int 14, Val.str "x"]
      (Or.inr ⟨2, by decide, by decide, by intro s; simp⟩)⟩

/-- C19: WithContext composes by concatenation on valid arguments: for every
error e and all a and b of even length with a string at every even index, the
context of `e.WithContext(a...).WithContext(b...)` is the context of
`e.WithContext` on a followed by b; and `e.WithContext()` with no arguments has
the context of e. -/
theorem WithContext_compose (e : erroneous) :
    (∀ a b : List Val,
      a.length % 2 = 0 → (∀ i (h : i < a.length), i % 2 = 0 → ∃ s, a[i] = Val.str s) →
      b.length % 2 = 0 → (∀ i (h : i < b.length), i % 2 = 0 → ∃ s, b[i] = Val.str s) →
      ∃ e1 e2 e3, e.WithContext a = .ok e1 ∧ e1.WithContext b = .ok e2 ∧
        e.WithContext (a ++ b) = .ok e3 ∧ e2.Context = e3.Context) ∧
    (∃ e0, e.WithContext [] = .ok e0 ∧ e0.Context = e.Context) := by
  refine ⟨?_, ?_⟩
  · intro a b ha1 ha2 hb1 hb2
    have hva : ValidCtx a := ⟨ha1, fun i h hpar => (isString_iff _).mpr (ha2 i h hpar)⟩
    have hvb : ValidCtx b := ⟨hb1, fun i h hpar => (isString_iff _).mpr (hb2 i h hpar)⟩
    refine ⟨_, _, _, WithContext_ok e a a (validate_valid a hva),
      WithContext_ok _ b b (validate_valid b hvb),
      WithContext_ok e (a ++ b) (a ++ b) (validate_valid _ (validCtx_append a b hva hvb)), ?_⟩
    show (e.ctx ++ a) ++ b = e.ctx ++ (a ++ b)
    rw [List.append_assoc]
  · refine ⟨_, WithContext_ok e [] [] (validate_valid [] (by decide)), ?_⟩
    show e.ctx ++ [] = e.ctx
    rw [List.append_nil]

/-- Witness of C19: `WithContext("a", 1)` then `WithContext("b", 2)` on the
context ("old", "context"). -/
theorem WithContext_compose_witness :
    ∃ e1 e2 e3,
      erroneous.WithContext
        { error := GoError.plain 0, ctx := [Val.str "old", Val.str "context"], stack := none }
        [Val.str "a", Val.int 1] = .ok e1 ∧
      e1.WithContext [Val.str "b", Val.int 2] = .ok e2 ∧
      erroneous.WithContext
        { error := GoError.plain 0, ctx := [Val.str "old", Val.str "context"], stack := none }
        ([Val.str "a", Val.int 1] ++ [Val.str "b", Val.int 2]) = .ok e3 ∧
      e2.Context = e3.Context :=
  (WithContext_compose _).1 [Val.str "a", Val.int 1] [Val.str "b", Val.int 2]
    (by decide)
    (fun i h hpar => (isString_iff _).mp
      ((by decide : StringKeys [Val.str "a", Val.int 1]) i h hpar))
    (by decide)
    (fun i h hpar => (isString_iff _).mp
      ((by decide : StringKeys [Val.str "b", Val.int 2]) i h hpar))

/-! ## The memory: reading slices and structs -/

theorem heap_elems_length (m : Heap.Memory) (s : Heap.Slice) (l : List Val)
    (h : m.elems s = some l) : l.length = s.len := by
  unfold Heap.Memory.elems at h
  by_cases h0 : s.len = 0
  · simp only [h0, if_true, Option.some.injEq] at h
    subst h
    simp [h0]
  · simp only [h0, if_false] at h
    cases ha : m.arrays[s.arr]? with
    | none => simp [ha] at h
    | some a =>
      simp only [ha] at h
      by_cases hle : s.off + s.len ≤ a.length
      · simp only [hle, if_true, Option.some.injEq] at h
        subst h
        simp
        omega
      · simp [hle] at h

theorem heap_load_of_elems (m : Heap.Memory) (s : Heap.Slice) (l : List Val) (i : Nat)
    (v : Val) (h : m.elems s = some l) (hv : l[i]? = some v) : Heap.load m s i = .ok v := by
  have hlen := heap_elems_length m s l h
  have hi : i < l.length := (List.getElem?_eq_some_iff.mp hv).1
  have h0 : ¬ s.len = 0 := by omega
  unfold Heap.Memory.elems at h
  simp only [h0, if_false] at h
  unfold Heap.load
  rw [if_pos (by omega)]
  cases ha : m.arrays[s.arr]? with
  | none => simp [ha] at h
  | some a =>
    simp only [ha] at h
    by_cases hle : s.off + s.len ≤ a.length
    · simp only [hle, if_true, Option.some.injEq] at h
      subst h
      have hget : a[s.off + i]? = some v := by
        rw [← hv, List.getElem?_take_of_lt (by omega), List.getElem?_drop]
      simp [hget]
    · simp [hle] at h

theorem heap_elems_frame (A t : List (List Val)) (st st2 : List Heap.erroneous)
    (s : Heap.Slice) (l : List Val)
    (h : Heap.Memory.elems { arrays := A, structs := st } s = some l) :
    Heap.Memory.elems { arrays := A ++ t, structs := st2 } s = some l := by
  unfold Heap.Memory.elems at h ⊢
  by_cases h0 : s.len = 0
  · simp only [h0, if_true] at h ⊢
    exact h
  · simp only [h0, if_false] at h ⊢
    cases ha : A[s.arr]? with
    | none => simp [ha] at h
    | some a =>
      have hlt : s.arr < A.length := (List.getElem?_eq_some_iff.mp ha).1
      simp only [ha] at h
      simp only [List.getElem?_append_left hlt, ha]
      exact h

theorem heap_read_frame (A t : List (List Val)) (st u : List Heap.erroneous) (p : Nat)
    (e : erroneous)
    (h : Heap.Memory.read { arrays := A, structs := st } p = some e) :
    Heap.Memory.read { arrays := A ++ t, structs := st ++ u } p = some e := by
  unfold Heap.Memory.read at h ⊢
  cases hp : st[p]? with
  | none => simp [hp] at h
  | some o =>
    have hlt : p < st.length := (List.getElem?_eq_some_iff.mp hp).1
    simp only [hp] at h
    simp only [List.getElem?_append_left hlt, hp]
    cases hc : Heap.Memory.elems { arrays := A, structs := st } o.ctx with
    | none => simp [hc] at h
    | some c =>
      simp only [hc] at h
      simp only [heap_elems_frame A t st (st ++ u) o.ctx c hc]
      exact h

theorem list_getElem_fresh (A : List (List Val)) (d : List Val) :
    (A ++ [d])[A.length]? = some d := by
  rw [List.getElem?_append_right (Nat.le_refl _)]
  simp

theorem list_set_fresh (A : List (List Val)) (d x : List Val) :
    (A ++ [d]).set A.length x = A ++ [x] := by
  induction A with
  | nil => rfl
  | cons a as ih =>
    simp only [List.cons_append, List.length_cons, List.set_cons_succ, ih]

theorem heap_elems_fresh (A : List (List Val)) (st : List Heap.erroneous) (d : List Val)
    (cap : Nat) :
    Heap.Memory.elems { arrays := A ++ [d], structs := st }
      { arr := A.length, off := 0, len := d.length, cap := cap } = some d := by
  unfold Heap.Memory.elems
  by_cases h0 : d.length = 0
  · have hd : d = [] := List.length_eq_zero.mp h0
    simp [hd]
  · simp only [h0, if_false]
    rw [list_getElem_fresh]
    simp

theorem heap_copy_fresh (A : List (List Val)) (st : List Heap.erroneous) (d vs : List Val)
    (off len cap : Nat) (src : Heap.Slice)
    (hsrc : Heap.Memory.elems { arrays := A ++ [d], structs := st } src = some vs)
    (hn : src.len ≤ len) (hd : off + src.len ≤ d.length) :
    Heap.copy { arrays := A ++ [d], structs := st }
        { arr := A.length, off := off, len := len, cap := cap } src =
      .ok ({ arrays := A ++ [d.take off ++ vs ++ d.drop (off + src.len)], structs := st },
        src.len) := by
  have hlen := heap_elems_length _ src vs hsrc
  unfold Heap.copy
  have hmin : min len src.len = src.len := Nat.min_eq_right hn
  simp only [hmin]
  by_cases h0 : src.len = 0
  · have hvs : vs = [] := List.length_eq_zero.mp (by omega)
    simp [h0, hvs]
  · rw [if_neg h0]
    have hs : ({ arr := src.arr, off := src.off, len := src.len, cap := src.cap } : Heap.Slice)
        = src := by
      cases src; rfl
    rw [hs, hsrc]
    simp only [list_getElem_fresh, hd, if_true, list_set_fresh]

theorem heap_store_fresh (A : List (List Val)) (st : List Heap.erroneous) (d : List Val)
    (off len cap i : Nat) (v : Val) (hi : i < len) (hd : off + i < d.length) :
    Heap.store { arrays := A ++ [d], structs := st }
        { arr := A.length, off := off, len := len, cap := cap } i v =
      .ok { arrays := A ++ [d.set (off + i) v], structs := st } := by
  unfold Heap.store
  simp only [hi, if_true, list_getElem_fresh, hd, list_set_fresh]

/-! ## The memory: validate and WithContext -/

theorem heap_validate_loop_ok (m : Heap.Memory) (s : Heap.Slice) (l : List Val)
    (h : m.elems s = some l) :
    ∀ (n i : Nat), s.len - i ≤ n →
      (∀ j (hj : j < l.length), i ≤ j → (j - i) % 2 = 0 → l[j].isString = true) →
      Heap.validate.loop m s i = .ok (m, s) := by
  have hlen := heap_elems_length m s l h
  intro n
  induction n with
  | zero =>
    intro i hn _
    rw [Heap.validate.loop, if_neg (by omega)]
  | succ n ih =>
    intro i hn hs
    rw [Heap.validate.loop]
    by_cases hi : i < s.len
    · have hil : i < l.length := by omega
      rw [if_pos hi, heap_load_of_elems m s l i l[i] h (List.getElem?_eq_getElem hil)]
      simp only [hs i hil (Nat.le_refl i) (by simp), if_true]
      apply ih (i + 2) (by omega)
      intro j hj hij hpar
      exact hs j hj (by omega) (by omega)
    · rw [if_neg hi]

theorem heap_validate_loop_bad (m : Heap.Memory) (s : Heap.Slice) (l : List Val)
    (h : m.elems s = some l) :
    ∀ (n i j : Nat) (hj : j < l.length), s.len - i ≤ n → i ≤ j → (j - i) % 2 = 0 →
      l[j].isString = false →
      Heap.validate.loop m s i =
        .ok (Heap.badCtx m "invalid context, even-position not a string") := by
  have hlen := heap_elems_length m s l h
  intro n
  induction n with
  | zero =>
    intro i j hj hn hij _ _
    omega
  | succ n ih =>
    intro i j hj hn hij hpar hns
    have hil : i < l.length := by omega
    rw [Heap.validate.loop, if_pos (by omega),
      heap_load_of_elems m s l i l[i] h (List.getElem?_eq_getElem hil)]
    by_cases hs : l[i].isString = true
    · simp only [hs, if_true]
      have hne : i ≠ j := by
        intro heq
        subst heq
        rw [hs] at hns
        exact Bool.noConfusion hns
      exact ih (i + 2) j hj (by omega) (by omega) (by omega) hns
    · simp [hs]

theorem heap_badCtx_elems (m : Heap.Memory) (msg : String) :
    (Heap.badCtx m msg).1 = { arrays := m.arrays ++ [badCtx msg], structs := m.structs } ∧
    (Heap.badCtx m msg).1.elems (Heap.badCtx m msg).2 = some (badCtx msg) := by
  refine ⟨rfl, ?_⟩
  exact heap_elems_fresh m.arrays m.structs (badCtx msg) _

/-- The function validate on the memory returns what validate returns on the
elements of the slice, and only allocates. -/
theorem heap_validate_spec (m : Heap.Memory) (s : Heap.Slice) (l : List Val)
    (h : m.elems s = some l) :
    ∃ t v c, Heap.validate m s = .ok ({ arrays := m.arrays ++ t, structs := m.structs }, v) ∧
      validate l = .ok c ∧
      Heap.Memory.elems { arrays := m.arrays ++ t, structs := m.structs } v = some c := by
  have hlen := heap_elems_length m s l h
  rcases validate_cases l with ⟨hv, he⟩ | ⟨hodd, he⟩ | ⟨heven, hns, he⟩
  · refine ⟨[], s, l, ?_, he, ?_⟩
    · unfold Heap.validate
      rw [if_neg (by rw [← hlen]; simp [hv.1])]
      rw [heap_validate_loop_ok m s l h s.len 0 (by omega)
        (fun j hj _ hpar => hv.2 j hj (by simpa using hpar))]
      simp
    · simpa using h
  · refine ⟨[badCtx "invalid context, odd length"], _, _, ?_, he,
      (heap_badCtx_elems m "invalid context, odd length").2⟩
    unfold Heap.validate
    rw [if_pos (by rw [← hlen]; omega)]
    rfl
  · refine ⟨[badCtx "invalid context, even-position not a string"], _, _, ?_, he,
      (heap_badCtx_elems m "invalid context, even-position not a string").2⟩
    unfold Heap.validate
    rw [if_neg (by rw [← hlen]; simp [heven])]
    unfold StringKeys at hns
    push_neg at hns
    obtain ⟨j, hj, hpar, hnot⟩ := hns
    rw [heap_validate_loop_bad m s l h s.len 0 j hj (by omega) (by omega) (by simpa using hpar)
      (by simpa using hnot)]
    rfl

theorem heap_deref_frame (A : List (List Val)) (st : List Heap.erroneous) (p : Nat)
    (o : Heap.erroneous) (hp : st[p]? = some o) :
    Heap.deref { arrays := A, structs := st } p = .ok o := by
  simp [Heap.deref, hp]

theorem heap_read_alloc (A : List (List Val)) (st : List Heap.erroneous) (o : Heap.erroneous)
    (c : List Val)
    (h : Heap.Memory.elems { arrays := A, structs := st ++ [o] } o.ctx = some c) :
    Heap.Memory.read { arrays := A, structs := st ++ [o] } st.length =
      some { error := o.error, ctx := c, stack := o.stack } := by
  unfold Heap.Memory.read
  have hs : (st ++ [o])[st.length]? = some o := by
    rw [List.getElem?_append_right (Nat.le_refl _)]
    simp
  simp only [hs, h]

/-- The method WithContext on the memory allocates one array for the new
context (and one for a sentinel pair), writes into no other array, and the new
struct holds the context of the receiver followed by the validated arguments. -/
theorem heap_WithContext_spec (m : Heap.Memory) (p : Nat) (o : Heap.erroneous)
    (c ps : List Val) (pairs : Heap.Slice)
    (hp : m.structs[p]? = some o) (hc : m.elems o.ctx = some c)
    (hps : m.elems pairs = some ps) :
    ∃ t S v, validate ps = .ok v ∧
      Heap.WithContext m p pairs =
        .ok ({ arrays := m.arrays ++ t,
               structs := m.structs ++ [{ error := o.error, ctx := S, stack := o.stack }] },
             m.structs.length) ∧
      Heap.Memory.elems
        { arrays := m.arrays ++ t,
          structs := m.structs ++ [{ error := o.error, ctx := S, stack := o.stack }] } S =
        some (c ++ v) := by
  obtain ⟨t1, vs, v, hval, hv, hvs⟩ := heap_validate_spec m pairs ps hps
  have hclen := heap_elems_length m o.ctx c hc
  have hvlen := heap_elems_length _ vs v hvs
  have hc1 : ∀ d, Heap.Memory.elems
      { arrays := (m.arrays ++ t1) ++ [d], structs := m.structs } o.ctx = some c := by
    intro d
    rw [List.append_assoc]
    exact heap_elems_frame m.arrays (t1 ++ [d]) m.structs m.structs o.ctx c hc
  have hv1 : ∀ d, Heap.Memory.elems
      { arrays := (m.arrays ++ t1) ++ [d], structs := m.structs } vs = some v := by
    intro d
    exact heap_elems_frame (m.arrays ++ t1) [d] m.structs m.structs vs v hvs
  have hcopy1 := heap_copy_fresh (m.arrays ++ t1) m.structs
    (List.replicate (o.ctx.len + vs.len) Val.nil) c 0 (o.ctx.len + vs.len)
    (o.ctx.len + vs.len) o.ctx (hc1 _) (by omega) (by simp)
  have hd1 : List.take 0 (List.replicate (o.ctx.len + vs.len) Val.nil) ++ c ++
      List.drop (0 + o.ctx.len) (List.replicate (o.ctx.len + vs.len) Val.nil) =
      c ++ List.replicate vs.len Val.nil := by
    simp [List.drop_replicate]
  rw [hd1] at hcopy1
  have hcopy2 := heap_copy_fresh (m.arrays ++ t1) m.structs
    (c ++ List.replicate vs.len Val.nil) v (0 + o.ctx.len) (o.ctx.len + vs.len - o.ctx.len)
    (o.ctx.len + vs.len - o.ctx.len) vs (hv1 _) (by omega) (by simp; omega)
  have hd2 : List.take (0 + o.ctx.len) (c ++ List.replicate vs.len Val.nil) ++ v ++
      List.drop (0 + o.ctx.len + vs.len) (c ++ List.replicate vs.len Val.nil) = c ++ v := by
    rw [Nat.zero_add, ← hclen, List.take_left' rfl]
    rw [List.drop_of_length_le (by simp)]
    simp
  rw [hd2] at hcopy2
  refine ⟨t1 ++ [c ++ v],
    { arr := (m.arrays ++ t1).length, off := 0, len := o.ctx.len + vs.len,
      cap := o.ctx.len + vs.len }, v, hv, ?_, ?_⟩
  · unfold Heap.WithContext
    rw [hval]
    simp only [heap_deref_frame _ _ p o hp, Heap.make, hcopy1, Heap.Slice.sliceFrom,
      Nat.le_add_right, if_true, hcopy2, Heap.Slice.sliceTo, Nat.le_refl, Heap.alloc]
    rw [List.append_assoc]
  · rw [← List.append_assoc]
    have hlen : (c ++ v).length = o.ctx.len + vs.len := by
      rw [List.length_append, hclen, hvlen]
    rw [← hlen]
    exact heap_elems_fresh (m.arrays ++ t1) _ (c ++ v) _

theorem heap_WithStack_spec (T : CallStack → CallStack) (self : Call) (callers : List Call)
    (m : Heap.Memory) (p : Nat) (o : Heap.erroneous) (hp : m.structs[p]? = some o) :
    Heap.WithStack T self callers m p =
      .ok ({ arrays := m.arrays,
             structs := m.structs ++
               [{ error := o.error, ctx := o.ctx, stack := T (some callers) }] },
           m.structs.length) := by
  simp [Heap.WithStack, Heap.deref, hp, sliceFrom, Trace, Heap.alloc]

/-! ## The memory: WithHTTPCode -/

theorem heap_WithHTTPCode_loop_found (m : Heap.Memory) (p : Nat) (o : Heap.erroneous)
    (cs : List Val) (code : Int) (hc : m.elems o.ctx = some cs) :
    ∀ (n i j : Nat), j - i ≤ n → i ≤ j → (j - i) % 2 = 0 →
      cs[j]? = some (Val.str httpCode) →
      (∀ k, i ≤ k → k < j → (k - i) % 2 = 0 → cs[k]? ≠ some (Val.str httpCode)) →
      j + 1 < cs.length →
      Heap.WithHTTPCode.loop m p o code i =
        .ok ({ arrays := m.arrays ++ [cs.set (j + 1) (Val.int code)],
               structs := m.structs ++
                 [{ error := o.error,
                    ctx := { arr := m.arrays.length, off := 0, len := o.ctx.len,
                             cap := o.ctx.len },
                    stack := o.stack }] },
             m.structs.length) := by
  have hclen := heap_elems_length m o.ctx cs hc
  have hfound : ∀ j, cs[j]? = some (Val.str httpCode) → j + 1 < cs.length →
      Heap.WithHTTPCode.loop m p o code j =
        .ok ({ arrays := m.arrays ++ [cs.set (j + 1) (Val.int code)],
               structs := m.structs ++
                 [{ error := o.error,
                    ctx := { arr := m.arrays.length, off := 0, len := o.ctx.len,
                             cap := o.ctx.len },
                    stack := o.stack }] },
             m.structs.length) := by
    intro j hk hlt
    have hcopy := heap_copy_fresh m.arrays m.structs (List.replicate o.ctx.len Val.nil) cs 0
      o.ctx.len o.ctx.len o.ctx
      (heap_elems_frame m.arrays [List.replicate o.ctx.len Val.nil] m.structs m.structs
        o.ctx cs hc) (Nat.le_refl _) (by simp)
    have hd : List.take 0 (List.replicate o.ctx.len Val.nil) ++ cs ++
        List.drop (0 + o.ctx.len) (List.replicate o.ctx.len Val.nil) = cs := by
      simp [List.drop_replicate]
    rw [hd] at hcopy
    have hstore := heap_store_fresh m.arrays m.structs cs 0 o.ctx.len o.ctx.len (j + 1)
      (Val.int code) (by omega) (by omega)
    rw [Nat.zero_add] at hstore
    rw [Heap.WithHTTPCode.loop, if_pos (by omega), heap_load_of_elems m o.ctx cs j _ hc hk]
    simp only [if_true, Heap.make, hcopy, hstore, Heap.alloc]
  intro n
  induction n with
  | zero =>
    intro i j hn hij _ hk _ hlt
    have hji : j = i := by omega
    subst hji
    exact hfound j hk hlt
  | succ n ih =>
    intro i j hn hij hpar hk hfirst hlt
    by_cases hji : j = i
    · subst hji
      exact hfound j hk hlt
    · have hi : i < cs.length := by omega
      have hne : cs[i] ≠ Val.str httpCode := by
        intro heq
        apply hfirst i (Nat.le_refl i) (by omega) (by simp)
        rw [List.getElem?_eq_getElem hi, heq]
      rw [Heap.WithHTTPCode.loop, if_pos (by omega),
        heap_load_of_elems m o.ctx cs i cs[i] hc (List.getElem?_eq_getElem hi)]
      simp only [hne, if_false]
      apply ih (i + 2) j (by omega) (by omega) (by omega) hk _ hlt
      intro k hk1 hk2 hkpar
      exact hfirst k (by omega) hk2 (by omega)

theorem heap_WithHTTPCode_loop_absent (m : Heap.Memory) (p : Nat) (o : Heap.erroneous)
    (cs : List Val) (code : Int) (hc : m.elems o.ctx = some cs) :
    ∀ (n i : Nat), cs.length - i ≤ n →
      (∀ k, i ≤ k → k < cs.length → (k - i) % 2 = 0 → cs[k]? ≠ some (Val.str httpCode)) →
      Heap.WithHTTPCode.loop m p o code i =
        Heap.WithContext (Heap.literal m [Val.str httpCode, Val.int code]).1 p
          (Heap.literal m [Val.str httpCode, Val.int code]).2 := by
  have hclen := heap_elems_length m o.ctx cs hc
  intro n
  induction n with
  | zero =>
    intro i hn _
    rw [Heap.WithHTTPCode.loop, if_neg (by omega)]
  | succ n ih =>
    intro i hn habs
    rw [Heap.WithHTTPCode.loop]
    by_cases hi : i < cs.length
    · have hne : cs[i] ≠ Val.str httpCode := by
        intro heq
        apply habs i (Nat.le_refl i) hi (by simp)
        rw [List.getElem?_eq_getElem hi, heq]
      rw [if_pos (by omega),
        heap_load_of_elems m o.ctx cs i cs[i] hc (List.getElem?_eq_getElem hi)]
      simp only [hne, if_false]
      apply ih (i + 2) (by omega)
      intro k hk1 hk2 hkpar
      exact habs k (by omega) hk2 (by omega)
    · rw [if_neg (by omega)]

/-- The method WithHTTPCode on the memory, for a receiver whose context has
even length: it allocates, writes into no array that existed before, and the
new struct holds the context that WithHTTPCode gives on the elements. -/
theorem heap_WithHTTPCode_spec (m : Heap.Memory) (p : Nat) (o : Heap.erroneous)
    (cs : List Val) (code : Int)
    (hp : m.structs[p]? = some o) (hc : m.elems o.ctx = some cs)
    (hlen : cs.length % 2 = 0) :
    ∃ t S e2,
      erroneous.WithHTTPCode { error := o.error, ctx := cs, stack := o.stack } code = .ok e2 ∧
      Heap.WithHTTPCode m p code =
        .ok ({ arrays := m.arrays ++ t,
               structs := m.structs ++ [{ error := o.error, ctx := S, stack := o.stack }] },
             m.structs.length) ∧
      Heap.Memory.elems
        { arrays := m.arrays ++ t,
          structs := m.structs ++ [{ error := o.error, ctx := S, stack := o.stack }] } S =
        some e2.ctx := by
  have hclen := heap_elems_length m o.ctx cs hc
  have hderef : Heap.deref m p = .ok o := by simp [Heap.deref, hp]
  rcases WithHTTPCode_cases { error := o.error, ctx := cs, stack := o.stack } code hlen with
    ⟨i, hf, hlt, hw⟩ | ⟨hk, hw⟩
  · refine ⟨[cs.set (i + 1) (Val.int code)],
      { arr := m.arrays.length, off := 0, len := o.ctx.len, cap := o.ctx.len }, _, hw, ?_, ?_⟩
    · unfold Heap.WithHTTPCode
      rw [hderef]
      exact heap_WithHTTPCode_loop_found m p o cs code hc i 0 i (by omega) (by omega)
        (by simpa using hf.1) hf.2.1
        (fun k _ hki hkpar => hf.2.2 k hki (by simpa using hkpar)) hlt
    · have hl : (cs.set (i + 1) (Val.int code)).length = o.ctx.len := by
        rw [List.length_set, hclen]
      rw [← hl]
      exact heap_elems_fresh m.arrays _ (cs.set (i + 1) (Val.int code)) _
  · have hloop : Heap.WithHTTPCode m p code =
        Heap.WithContext (Heap.literal m [Val.str httpCode, Val.int code]).1 p
          (Heap.literal m [Val.str httpCode, Val.int code]).2 := by
      unfold Heap.WithHTTPCode
      rw [hderef]
      apply heap_WithHTTPCode_loop_absent m p o cs code hc cs.length 0 (by omega)
      intro k _ hklt hkpar hkk
      exact hk ⟨k, hklt, by simpa using hkpar, hkk⟩
    obtain ⟨t, S, v, hv, hwc, hel⟩ := heap_WithContext_spec
      (Heap.literal m [Val.str httpCode, Val.int code]).1 p o cs
      [Val.str httpCode, Val.int code] (Heap.literal m [Val.str httpCode, Val.int code]).2
      hp
      (heap_elems_frame m.arrays [[Val.str httpCode, Val.int code]] m.structs m.structs
        o.ctx cs hc)
      (heap_elems_fresh m.arrays m.structs [Val.str httpCode, Val.int code] _)
    rw [validate_valid _ (validCtx_httpCode code)] at hv
    cases hv
    refine ⟨[[Val.str httpCode, Val.int code]] ++ t, S, _, hw, ?_, ?_⟩
    · rw [hloop, hwc]
      simp [Heap.literal]
    · rw [← List.append_assoc]
      exact hel

theorem heap_read_inv (m : Heap.Memory) (p : Nat) (e : erroneous)
    (h : m.read p = some e) :
    ∃ o cs, m.structs[p]? = some o ∧ m.elems o.ctx = some cs ∧
      e = { error := o.error, ctx := cs, stack := o.stack } := by
  unfold Heap.Memory.read at h
  cases hp : m.structs[p]? with
  | none => simp [hp] at h
  | some o =>
    simp only [hp] at h
    cases hc : m.elems o.ctx with
    | none => simp [hc] at h
    | some cs =>
      simp only [hc, Option.some.injEq] at h
      exact ⟨o, cs, rfl, hc, h.symm⟩

/-! ## The receiver is not modified -/

/-- C13: no mutator modifies its receiver. With slices as references into a
memory of backing arrays and the receiver a pointer p that denotes a reachable
error e: each of WithContext, WithHTTPCode and WithStack returns a pointer q to
a new struct, other than p, that denotes the result of the method on e; after
the call p still denotes e, so its Context (every element, the value paired
with an existing "httpcode" key included), Unwrap and Stack are as before the
call, and every other pointer denotes what it denoted before. -/
theorem mutators_keep_receiver (m : Heap.Memory) (p : Nat) (e : erroneous)
    (hread : m.read p = some e) (hr : Reachable e) :
    (∀ pairs ps, m.elems pairs = some ps →
      ∃ m2 q e2, Heap.WithContext m p pairs = .ok (m2, q) ∧
        e.WithContext ps = .ok e2 ∧ m2.read q = some e2 ∧ q ≠ p ∧
        m2.read p = some e ∧ ∀ r x, m.read r = some x → m2.read r = some x) ∧
    (∀ code, ∃ m2 q e2, Heap.WithHTTPCode m p code = .ok (m2, q) ∧
        e.WithHTTPCode code = .ok e2 ∧ m2.read q = some e2 ∧ q ≠ p ∧
        m2.read p = some e ∧ ∀ r x, m.read r = some x → m2.read r = some x) ∧
    (∀ (T : CallStack → CallStack) (self : Call) (callers : List Call),
      ∃ m2 q e2, Heap.WithStack T self callers m p = .ok (m2, q) ∧
        e.WithStack T self callers = .ok e2 ∧ m2.read q = some e2 ∧ q ≠ p ∧
        m2.read p = some e ∧ ∀ r x, m.read r = some x → m2.read r = some x) := by
  obtain ⟨o, cs, hp, hc, he⟩ := heap_read_inv m p e hread
  subst he
  have hv : ValidCtx cs := reachable_validCtx _ hr
  have hlt : p < m.structs.length := (List.getElem?_eq_some_iff.mp hp).1
  have hne : m.structs.length ≠ p := by omega
  refine ⟨?_, ?_, ?_⟩
  · intro pairs ps hps
    obtain ⟨t, S, v, hval, hw, hel⟩ := heap_WithContext_spec m p o cs ps pairs hp hc hps
    have hframe : ∀ r x, m.read r = some x →
        Heap.Memory.read
          { arrays := m.arrays ++ t,
            structs := m.structs ++ [{ error := o.error, ctx := S, stack := o.stack }] } r =
          some x :=
      fun r x hx => heap_read_frame m.arrays t m.structs _ r x hx
    exact ⟨_, _, _, hw, WithContext_ok _ ps v hval,
      heap_read_alloc _ m.structs { error := o.error, ctx := S, stack := o.stack } _ hel,
      hne, hframe p _ hread, hframe⟩
  · intro code
    obtain ⟨t, S, e2, hpure, hw, hel⟩ := heap_WithHTTPCode_spec m p o cs code hp hc hv.1
    have hframe : ∀ r x, m.read r = some x →
        Heap.Memory.read
          { arrays := m.arrays ++ t,
            structs := m.structs ++ [{ error := o.error, ctx := S, stack := o.stack }] } r =
          some x :=
      fun r x hx => heap_read_frame m.arrays t m.structs _ r x hx
    have hfr := WithHTTPCode_loop_frame _ e2 code cs.length 0
      (by show cs.length - 0 ≤ cs.length; omega) hpure
    have he2 : e2 = { error := o.error, ctx := e2.ctx, stack := o.stack } := by
      cases e2 with
      | mk er cx sk =>
        simp only at hfr
        obtain ⟨h1, h2⟩ := hfr
        subst h1
        subst h2
        rfl
    refine ⟨_, _, e2, hw, hpure, ?_, hne, hframe p _ hread, hframe⟩
    rw [he2]
    exact heap_read_alloc _ m.structs { error := o.error, ctx := S, stack := o.stack } _ hel
  · intro T self callers
    have hframe : ∀ r x, m.read r = some x →
        Heap.Memory.read
          { arrays := m.arrays ++ [],
            structs := m.structs ++
              [{ error := o.error, ctx := o.ctx, stack := T (some callers) }] } r =
          some x :=
      fun r x hx => heap_read_frame m.arrays [] m.structs _ r x hx
    rw [List.append_nil] at hframe
    refine ⟨_, _, _, heap_WithStack_spec T self callers m p o hp, WithStack_ok T self callers _,
      ?_, hne, hframe p _ hread, hframe⟩
    apply heap_read_alloc m.arrays m.structs
      { error := o.error, ctx := o.ctx, stack := T (some callers) } cs
    have h2 := heap_elems_frame m.arrays [] m.structs
      (m.structs ++ [{ error := o.error, ctx := o.ctx, stack := T (some callers) }]) o.ctx cs hc
    rw [List.append_nil] at h2
    exact h2

/-- Witness of C13: the receiver at address 0 holds ("old", "context",
"httpcode", 1) in the array at address 0; after `WithHTTPCode(404)` it denotes
the same error. -/
theorem mutators_keep_receiver_witness :
    ∃ m2 q e2,
      Heap.WithHTTPCode
        { arrays := [[Val.str "old", Val.str "context", Val.str "httpcode", Val.int 1]],
          structs := [{ error := GoError.plain 0,
                        ctx := { arr := 0, off := 0, len := 4, cap := 4 },
                        stack := some [⟨1⟩] }] } 0 404 = .ok (m2, q) ∧
      erroneous.WithHTTPCode
        { error := GoError.plain 0,
          ctx := [Val.str "old", Val.str "context", Val.str "httpcode", Val.int 1],
          stack := some [⟨1⟩] } 404 = .ok e2 ∧
      m2.read q = some e2 ∧ q ≠ 0 ∧
      m2.read 0 = some
        { error := GoError.plain 0,
          ctx := [Val.str "old", Val.str "context", Val.str "httpcode", Val.int 1],
          stack := some [⟨1⟩] } := by
  obtain ⟨m2, q, e2, h1, h2, h3, h4, h5, _⟩ := (mutators_keep_receiver
    { arrays := [[Val.str "old", Val.str "context", Val.str "httpcode", Val.int 1]],
      structs := [{ error := GoError.plain 0,
                    ctx := { arr := 0, off := 0, len := 4, cap := 4 },
                    stack := some [⟨1⟩] }] } 0
    { error := GoError.plain 0,
      ctx := [Val.str "old", Val.str "context", Val.str "httpcode", Val.int 1],
      stack := some [⟨1⟩] }
    rfl
    (Reachable.wrap id ⟨0⟩ [⟨1⟩] 0
      [Val.str "old", Val.str "context", Val.str "httpcode", Val.int 1] _
      (Wrap_plain id ⟨0⟩ [⟨1⟩] 0 _ _ (validate_valid _ (by decide))))).2.1 404
  exact ⟨m2, q, e2, h1, h2, h3, h4, h5⟩

/-! ## The call stack -/

theorem TrimRuntime_some (runtime : Call → Bool) (fs : List Call) :
    TrimRuntime runtime (some fs) = some (fs.rdropWhile runtime) := rfl

/-- The frames cut from the outer end all belong to the runtime. -/
theorem rdropWhile_split (runtime : Call → Bool) (fs : List Call) :
    ∃ cut, fs = fs.rdropWhile runtime ++ cut ∧ ∀ f, f ∈ cut → runtime f = true := by
  induction fs using List.reverseRecOn with
  | nil => exact ⟨[], by simp, by simp⟩
  | append_singleton l x ih =>
    obtain ⟨cut, h1, h2⟩ := ih
    by_cases hx : runtime x = true
    · refine ⟨cut ++ [x], ?_, ?_⟩
      · rw [List.rdropWhile_concat_pos runtime l x hx, ← List.append_assoc, ← h1]
      · intro f hf
        rcases List.mem_append.mp hf with h | h
        · exact h2 f h
        · rw [List.mem_singleton.mp h]; exact hx
    · exact ⟨[], by rw [List.rdropWhile_concat_neg runtime l x hx]; simp, by simp⟩

/-- The outermost frame that is kept does not belong to the runtime. -/
theorem rdropWhile_getLast (runtime : Call → Bool) (fs : List Call) (f : Call)
    (h : (fs.rdropWhile runtime).getLast? = some f) : runtime f = false := by
  have hne : fs.rdropWhile runtime ≠ [] := by
    intro h0
    rw [h0] at h
    simp at h
  have hl := List.rdropWhile_last_not runtime fs hne
  rw [List.getLast?_eq_getLast _ hne] at h
  cases h
  simpa using hl

/-- The topmost frame that is kept is the first frame, and there is one
exactly when some frame does not belong to the runtime. -/
theorem rdropWhile_head (runtime : Call → Bool) (site : Call) (outer : List Call) :
    (∀ f, ((site :: outer).rdropWhile runtime).head? = some f → f = site) ∧
    (((site :: outer).rdropWhile runtime).head? = some site ↔
      ∃ f, f ∈ site :: outer ∧ runtime f = false) := by
  have hp : (site :: outer).rdropWhile runtime <+: site :: outer :=
    List.rdropWhile_prefix runtime (site :: outer)
  have hnil : (site :: outer).rdropWhile runtime = [] ↔
      ∀ x, x ∈ site :: outer → runtime x = true := List.rdropWhile_eq_nil_iff
  cases hst : (site :: outer).rdropWhile runtime with
  | nil =>
    refine ⟨by simp, ?_⟩
    constructor
    · intro h
      simp at h
    · rintro ⟨f, hf, hrf⟩
      have := hnil.mp hst f hf
      rw [hrf] at this
      cases this
  | cons a t =>
    rw [hst] at hp
    obtain ⟨r, hr⟩ := hp
    have ha : a = site := by
      simp only [List.cons_append, List.cons.injEq] at hr
      exact hr.1
    subst ha
    refine ⟨by intro f hf; simp at hf; exact hf.symm, ?_⟩
    constructor
    · intro _
      by_contra hcon
      have hall : ∀ x, x ∈ a :: outer → runtime x = true := by
        intro x hx
        by_contra hx2
        exact hcon ⟨x, hx, by simpa using hx2⟩
      have := hnil.mpr hall
      rw [hst] at this
      cases this
    · intro _
      rfl

/-- C14, amended: for a cause that is not nil and not annotated, Stack of the
wrapped error is not nil and holds the frames from the call site of Wrap
outward (the frame of Wrap itself is dropped) without the run of frames of the
runtime at the outer end: every frame cut belongs to the runtime, the outermost
frame kept does not, the topmost frame, when there is one, is the call site of
Wrap, and there is one exactly when some frame from the call site outward does
not belong to the runtime. Stack of `e.WithStack()` is built in the same way
from the call site of WithStack, whatever the stack of e was. -/
theorem Stack_at_call_site (runtime : Call → Bool) (self site : Call) (outer : List Call) :
    (∀ (c : Nat) (ctx : List Val), ∃ e st cut,
      Wrap (TrimRuntime runtime) self (site :: outer) (GoError.plain c) ctx = .ok (some e) ∧
      e.Stack ≠ none ∧ e.Stack = some st ∧
      site :: outer = st ++ cut ∧ (∀ f, f ∈ cut → runtime f = true) ∧
      (∀ f, st.getLast? = some f → runtime f = false) ∧
      (∀ f, st.head? = some f → f = site) ∧
      (st.head? = some site ↔ ∃ f, f ∈ site :: outer ∧ runtime f = false)) ∧
    (∀ e : erroneous, ∃ e2 st cut,
      e.WithStack (TrimRuntime runtime) self (site :: outer) = .ok e2 ∧
      e2.Stack ≠ none ∧ e2.Stack = some st ∧
      site :: outer = st ++ cut ∧ (∀ f, f ∈ cut → runtime f = true) ∧
      (∀ f, st.getLast? = some f → runtime f = false) ∧
      (∀ f, st.head? = some f → f = site) ∧
      (st.head? = some site ↔ ∃ f, f ∈ site :: outer ∧ runtime f = false)) := by
  obtain ⟨cut, hcut, hrun⟩ := rdropWhile_split runtime (site :: outer)
  have hlast := rdropWhile_getLast runtime (site :: outer)
  have hhead := rdropWhile_head runtime site outer
  refine ⟨?_, ?_⟩
  · intro c ctx
    obtain ⟨v, hv⟩ := validate_total ctx
    refine ⟨_, (site :: outer).rdropWhile runtime, cut,
      Wrap_plain (TrimRuntime runtime) self (site :: outer) c ctx v hv, ?_, ?_,
      hcut, hrun, hlast, hhead.1, hhead.2⟩
    · show TrimRuntime runtime (some (site :: outer)) ≠ none
      rw [TrimRuntime_some]
      simp
    · exact TrimRuntime_some runtime (site :: outer)
  · intro e
    refine ⟨_, (site :: outer).rdropWhile runtime, cut,
      WithStack_ok (TrimRuntime runtime) self (site :: outer) e, ?_, ?_,
      hcut, hrun, hlast, hhead.1, hhead.2⟩
    · show TrimRuntime runtime (some (site :: outer)) ≠ none
      rw [TrimRuntime_some]
      simp
    · exact TrimRuntime_some runtime (site :: outer)

/-- Witness of C14: frames with a site of 100 or more belong to the runtime;
Wrap is called at site 7 from site 8, below two frames of the runtime, and
WithStack at site 9 on an error wrapped at site 7: the topmost frames are 7
and 9. -/
theorem Stack_at_call_site_witness :
    (∃ e st,
      Wrap (TrimRuntime (fun f => decide (100 ≤ f.site))) ⟨0⟩ [⟨7⟩, ⟨8⟩, ⟨100⟩, ⟨101⟩]
        (GoError.plain 0) [] = .ok (some e) ∧
      e.Stack = some st ∧ st.head? = some ⟨7⟩) ∧
    (∃ e2 st,
      erroneous.WithStack (TrimRuntime (fun f => decide (100 ≤ f.site))) ⟨1⟩
        [⟨9⟩, ⟨8⟩, ⟨100⟩, ⟨101⟩]
        { error := GoError.plain 0, ctx := [], stack := some [⟨7⟩, ⟨8⟩] } = .ok e2 ∧
      e2.Stack = some st ∧ st.head? = some ⟨9⟩) := by
  constructor
  · obtain ⟨e, st, _, h1, _, h3, _, _, _, _, h8⟩ :=
      (Stack_at_call_site (fun f => decide (100 ≤ f.site)) ⟨0⟩ ⟨7⟩ [⟨8⟩, ⟨100⟩, ⟨101⟩]).1 0 []
    exact ⟨e, st, h1, h3, h8.mpr ⟨⟨7⟩, by simp, by decide⟩⟩
  · obtain ⟨e2, st, _, h1, _, h3, _, _, _, _, h8⟩ :=
      (Stack_at_call_site (fun f => decide (100 ≤ f.site)) ⟨1⟩ ⟨9⟩ [⟨8⟩, ⟨100⟩, ⟨101⟩]).2
        { error := GoError.plain 0, ctx := [], stack := some [⟨7⟩, ⟨8⟩] }
    exact ⟨e2, st, h1, h3, h8.mpr ⟨⟨9⟩, by simp, by decide⟩⟩

/-- Counterexample to C14 as stated: frames with a site of 100 or more belong
to the runtime. Wrap is called at site 7 by a deferred function that the
runtime (frame 100) runs while the function at site 8 is panicking, with the
frames 101 and 102 of the runtime at the outer end: the stored stack is
(7, 100, 8), so it holds a frame of the runtime. And when Wrap is called at a
site that is itself counted to the runtime (100), from frames of the runtime
only, the stored stack is empty and has no topmost frame. -/
theorem Stack_keeps_runtime_frame :
    (∃ e,
      Wrap (TrimRuntime (fun f => decide (100 ≤ f.site))) ⟨0⟩
        [⟨7⟩, ⟨100⟩, ⟨8⟩, ⟨101⟩, ⟨102⟩] (GoError.plain 0) [] = .ok (some e) ∧
      e.Stack = some [⟨7⟩, ⟨100⟩, ⟨8⟩] ∧
      ¬ (∀ f : Call, f ∈ [(⟨7⟩ : Call), ⟨100⟩, ⟨8⟩] → decide (100 ≤ f.site) = false)) ∧
    (∃ e,
      Wrap (TrimRuntime (fun f => decide (100 ≤ f.site))) ⟨0⟩
        [⟨100⟩, ⟨101⟩] (GoError.plain 0) [] = .ok (some e) ∧
      e.Stack = some [] ∧ ¬ (∃ st, e.Stack = some st ∧ st.head? = some ⟨100⟩)) := by
  refine ⟨⟨_, Wrap_plain _ ⟨0⟩ _ 0 [] [] (validate_valid _ (by decide)), by decide, ?_⟩,
    ⟨_, Wrap_plain _ ⟨0⟩ _ 0 [] [] (validate_valid _ (by decide)), by decide, ?_⟩⟩
  · intro h
    have := h ⟨100⟩ (by simp)
    revert this
    decide
  · rintro ⟨st, h1, h2⟩
    have h3 : st = [] := by
      have : (some ([] : List Call)) = some st := h1
      cases this
      rfl
    rw [h3] at h2
    simp at h2

end Erroneous
